import Mathlib

/-!
# Stock exchange server (Homeworks/Homework8/homework8/homework8.cpp) and
# URL splitter (Homeworks/Homework4/homework4/liererkt_hw4.cpp)

A shallow embedding of the stock-market operations of `namespace sm`, of the
command interpreter `processCmd`, of the thread admission protocol formed by
`runServer` and `serveClient`, of the decoder `url_decode`, and of
`breakDownURL`.

Conventions of the embedding

* `std::string` is `String`; functions that scan a string character by
  character work on its `List Char` (`String.data`), one `Char` per C++ `char`.
* `std::ostream& os` is the text written so far; `os << x` appends.
* `double` is `Double` below: IEEE-754 binary64 with round-to-nearest,
  ties-to-even, as on x86-64 Linux.  `std::stod` and `operator<<(double)` are
  modelled after glibc `strtod` and `printf("%g")` (precision 6, the default of
  a fresh stream) in the "C" locale; `std::stoi` after glibc `strtol`.
* `std::unordered_map<K, V>` is a function `K → Option V`; the code never
  iterates over a map, so only `find`, `at` and `operator[]` are needed.
* A search in a string returns `Option Nat`, `none` standing for
  `std::string::npos`; where the code computes with positions (`breakDownURL`)
  they are `size_t`, natural numbers modulo `2^64`.
* The loop of `url_decode` is modelled with a bound on its iterations and shown
  to end within it.
-/

namespace Homework8

/-! ## The type `double` -/

/-- An IEEE-754 binary64 value.  `fin neg m e` is the finite number
`(-1)^neg * m * 2^e`; results of operations have `m < 2^53`,
`-1074 ≤ e ≤ 971`, and `2^52 ≤ m` unless `e = -1074` (zero is `fin neg 0 0`). -/
inductive Double where
  | fin (neg : Bool) (m : Nat) (e : Int)
  | inf (neg : Bool)
  | nan (neg : Bool)
  deriving DecidableEq, Repr

/-- Worker of `bitLen`; the first argument is fuel. -/
def bitLenAux : Nat → Nat → Nat
  | 0, _ => 0
  | fuel + 1, n => if n = 0 then 0 else bitLenAux fuel (n / 2) + 1

/-- Number of binary digits of `n`: `2^(bitLen n - 1) ≤ n < 2^(bitLen n)` for `n > 0`. -/
def bitLen (n : Nat) : Nat := bitLenAux n n

/-- The quotient `n / d` rounded to the nearest integer, ties to even. -/
def divRoundEven (n d : Nat) : Nat :=
  let q := n / d
  let r := n % d
  if 2 * r < d then q
  else if 2 * r = d then (if q % 2 = 0 then q else q + 1)
  else q + 1

/-- The fraction `num / (den * 2^E)` as a pair of naturals. -/
def scale2 (num den : Nat) (E : Int) : Nat × Nat :=
  if 0 ≤ E then (num, den * 2 ^ E.toNat) else (num * 2 ^ (-E).toNat, den)

/-- The binary exponent `E` of the positive rational `num / den` that leaves a
53-bit quotient: `2^52 ≤ num / (den * 2^E) < 2^53`. -/
def binExp (num den : Nat) : Int :=
  let E1 : Int := (bitLen num : Int) - (bitLen den : Int) - 52
  let s1 := scale2 num den (E1 + 52)
  if s1.2 ≤ s1.1 then E1 else E1 - 1

/-- Rounds the positive rational `num / den` (with sign `neg`) to binary64,
round-to-nearest ties-to-even.  The flag is the range error of glibc `strtod`:
overflow, or a result that is tiny after rounding and inexact. -/
def roundPos (neg : Bool) (num den : Nat) : Double × Bool :=
  let E : Int := binExp num den
  let su := scale2 num den E
  let qu := divRoundEven su.1 su.2
  let tiny : Bool := if qu = 2 ^ 53 then decide (E + 1 < -1074) else decide (E < -1074)
  -- subnormal results keep the exponent -1074
  let Ec : Int := max E (-1074)
  let sc := scale2 num den Ec
  let q := divRoundEven sc.1 sc.2
  let inexact : Bool := decide (sc.1 % sc.2 ≠ 0)
  let m := if q = 2 ^ 53 then 2 ^ 52 else q
  let e := if q = 2 ^ 53 then Ec + 1 else Ec
  if 971 < e then (Double.inf neg, true)
  else if m = 0 then (Double.fin neg 0 0, tiny && inexact)
  else (Double.fin neg m e, tiny && inexact)

/-- Rounds the rational `(-1)^neg * num / den` to binary64 (`num = 0` gives a zero). -/
def roundRat (neg : Bool) (num den : Nat) : Double × Bool :=
  if num = 0 then (Double.fin neg 0 0, false) else roundPos neg num den

/-- The numerator of a finite value over the common denominator `2^(-emin)`:
`m * 2^(e - emin)`, signed. -/
def alignedInt (neg : Bool) (m : Nat) (e emin : Int) : Int :=
  let v : Int := (m * 2 ^ (e - emin).toNat : Nat)
  if neg then -v else v

/-- IEEE-754 addition, round-to-nearest ties-to-even.  A NaN operand is
returned as is; when both are NaN the first is returned here (which of the two
the hardware returns depends on the operand order the compiler chose, and
shows only in the sign of the NaN).  `inf + (-inf)` is the default NaN of
x86-64, whose sign bit is set. -/
def fadd : Double → Double → Double
  | .nan s, _ => .nan s
  | _, .nan s => .nan s
  | .inf s, .inf t => if s = t then .inf s else .nan true
  | .inf s, .fin _ _ _ => .inf s
  | .fin _ _ _, .inf t => .inf t
  | .fin s m e, .fin t n f =>
    let emin := min e f
    let i := alignedInt s m e emin + alignedInt t n f emin
    if i = 0 then
      -- an exact zero sum is +0 unless both operands are negative (zeros)
      Double.fin (s && t) 0 0
    else if 0 ≤ emin then (roundPos (decide (i < 0)) (i.natAbs * 2 ^ emin.toNat) 1).1
    else (roundPos (decide (i < 0)) i.natAbs (2 ^ (-emin).toNat)).1

/-- Negation of a non-NaN value (flips the sign). -/
def fneg : Double → Double
  | .fin s m e => .fin (!s) m e
  | .inf s => .inf (!s)
  | .nan s => .nan (!s)

/-- IEEE-754 subtraction `a - b`.  A NaN operand is returned unchanged. -/
def fsub (a b : Double) : Double :=
  match b with
  | .nan s => (match a with | .nan t => .nan t | _ => .nan s)
  | _ => fadd a (fneg b)

/-- Order of two finite values: `a ≤ b` as exact numbers. -/
def finLe (s : Bool) (m : Nat) (e : Int) (t : Bool) (n : Nat) (f : Int) : Bool :=
  let emin := min e f
  decide (alignedInt s m e emin ≤ alignedInt t n f emin)

/-- The comparison `a >= b` of C++ on doubles: false when an operand is NaN. -/
def fge : Double → Double → Bool
  | .nan _, _ => false
  | _, .nan _ => false
  | .inf s, .inf t => !s || t
  | .inf s, .fin _ _ _ => !s
  | .fin _ _ _, .inf t => t
  | .fin s m e, .fin t n f => finLe t n f s m e

/-- The double `0` (positive zero), the conversion of the `int` literal `0`. -/
def dzero : Double := .fin false 0 0

/-! ## Text conversions of `double` -/

/-- Removes the zeros at the end of a digit string. -/
def stripZeros (ds : List Char) : List Char :=
  (ds.reverse.dropWhile (fun c => c = '0')).reverse

/-- Worker of `decExp`: the least `k` (counting up from the given one) with
`den ≤ num * 10^k`; the first argument is fuel. -/
def decExpNegAux : Nat → Nat → Nat → Nat → Nat
  | 0, _, _, k => k
  | fuel + 1, num, den, k => if den ≤ num * 10 ^ k then k else decExpNegAux fuel num den (k + 1)

/-- The decimal exponent `X` of the positive rational `num / den`:
`10^X ≤ num/den < 10^(X+1)`. -/
def decExp (num den : Nat) : Int :=
  if den ≤ num then ((Nat.toDigits 10 (num / den)).length : Int) - 1
  else - (decExpNegAux (Nat.toDigits 10 den).length num den 1 : Int)

/-- The text `printf("%g")` (precision 6) gives for the positive rational `num / den`. -/
def fmtPos (num den : Nat) : List Char :=
  let X0 := decExp num den
  -- the six significant digits, rounded half-to-even on the exact value
  let D0 := if X0 ≤ 5 then divRoundEven (num * 10 ^ (5 - X0).toNat) den
            else divRoundEven num (den * 10 ^ (X0 - 5).toNat)
  let X := if D0 = 10 ^ 6 then X0 + 1 else X0
  let D := if D0 = 10 ^ 6 then 10 ^ 5 else D0
  let ds := Nat.toDigits 10 D
  if X < -4 ∨ 6 ≤ X then
    let frac := stripZeros (ds.drop 1)
    let ex := Nat.toDigits 10 X.natAbs
    ds.take 1 ++ (if frac = [] then [] else '.' :: frac) ++
      ['e', if X < 0 then '-' else '+'] ++ (if ex.length < 2 then '0' :: ex else ex)
  else if 0 ≤ X then
    let frac := stripZeros (ds.drop (X.toNat + 1))
    ds.take (X.toNat + 1) ++ (if frac = [] then [] else '.' :: frac)
  else
    '0' :: '.' :: (List.replicate ((-X).toNat - 1) '0' ++ stripZeros ds)

/-- The text written by `os << d` on a stream with default formatting flags. -/
def fmtDouble : Double → String
  | .nan s => if s then "-nan" else "nan"
  | .inf s => if s then "-inf" else "inf"
  | .fin s m e =>
    let body := if m = 0 then ['0']
      else if 0 ≤ e then fmtPos (m * 2 ^ e.toNat) 1
      else fmtPos m (2 ^ (-e).toNat)
    String.mk (if s then '-' :: body else body)

/-- The predicate `isspace` of the "C" locale. -/
def isSpace (c : Char) : Bool :=
  c = ' ' || c = '\t' || c = '\n' || c = '\x0b' || c = '\x0c' || c = '\r'

/-- Value of a decimal digit. -/
def decDigit (c : Char) : Option Nat :=
  if '0'.toNat ≤ c.toNat ∧ c.toNat ≤ '9'.toNat then some (c.toNat - '0'.toNat) else none

/-- Value of a hexadecimal digit. -/
def hexDigit (c : Char) : Option Nat :=
  if '0'.toNat ≤ c.toNat ∧ c.toNat ≤ '9'.toNat then some (c.toNat - '0'.toNat)
  else if 'a'.toNat ≤ c.toNat ∧ c.toNat ≤ 'f'.toNat then some (c.toNat - 'a'.toNat + 10)
  else if 'A'.toNat ≤ c.toNat ∧ c.toNat ≤ 'F'.toNat then some (c.toNat - 'A'.toNat + 10)
  else none

/-- Reads the longest run of digits at the head of the text, continuing the
number `acc` and the digit count `cnt`; returns them with the unread text. -/
def readDigits (digit : Char → Option Nat) (base : Nat) :
    List Char → Nat → Nat → Nat × Nat × List Char
  | [], acc, cnt => (acc, cnt, [])
  | c :: cs, acc, cnt =>
    match digit c with
    | some d => readDigits digit base cs (acc * base + d) (cnt + 1)
    | none => (acc, cnt, c :: cs)

/-- Case-insensitive test that the text starts with the lower-case word `w`. -/
def startsWithCI : List Char → List Char → Bool
  | [], _ => true
  | _ :: _, [] => false
  | w :: ws, c :: cs => (c = w || c.toNat + 32 = w.toNat) && startsWithCI ws cs

/-- An optional sign at the head of the text. -/
def readSign : List Char → Bool × List Char
  | '-' :: r => (true, r)
  | '+' :: r => (false, r)
  | s => (false, s)

/-- The exponent part (`e` or `p`, optional sign, digits) at the head of the
text; 0 when there is none or no digit follows the marker. -/
def readExponent (marker : Char) : List Char → Int
  | [] => 0
  | c :: r =>
    if c = marker ∨ c.toNat + 32 = marker.toNat then
      let sr := readSign r
      let d := readDigits decDigit 10 sr.2 0 0
      if d.2.1 = 0 then 0 else if sr.1 then - (d.1 : Int) else (d.1 : Int)
    else 0

/-- Mantissa at the head of the text: digits, optionally a point and more
digits.  Returns the digits read as one number, how many digits there were in
all, how many after the point, and the unread text. -/
def readMantissa (digit : Char → Option Nat) (base : Nat) (s : List Char) :
    Nat × Nat × Nat × List Char :=
  let i := readDigits digit base s 0 0
  match i.2.2 with
  | '.' :: r =>
    let f := readDigits digit base r i.1 0
    (f.1, i.2.1 + f.2.1, f.2.1, f.2.2)
  | r => (i.1, i.2.1, 0, r)

/-- The number `(-1)^neg * M * b^x` rounded to binary64. -/
def roundScaled (neg : Bool) (M b : Nat) (x : Int) : Double × Bool :=
  if M = 0 then (Double.fin neg 0 0, false)
  else if 0 ≤ x then roundRat neg (M * b ^ x.toNat) 1
  else roundRat neg M (b ^ (-x).toNat)

/-- The function `strtod` of glibc ("C" locale, round-to-nearest): `none` when
no conversion can be performed, otherwise the value and whether `errno` is set
to `ERANGE`. -/
def strtod (text : List Char) : Option (Double × Bool) :=
  let sr := readSign (text.dropWhile isSpace)
  let neg := sr.1
  match sr.2 with
  | [] => none
  | c :: r =>
    let startsNumber : Bool :=
      (decDigit c).isSome || (c = '.' && (match r with | d :: _ => (decDigit d).isSome | [] => false))
    if startsNumber then
      let hex := c = '0' && (match r with | x :: _ => x = 'x' || x = 'X' | [] => false)
      let mh := readMantissa hexDigit 16 (r.drop 1)
      if hex && mh.2.1 ≠ 0 then
        some (roundScaled neg mh.1 2 (readExponent 'p' mh.2.2.2 - 4 * (mh.2.2.1 : Int)))
      else if hex then some (Double.fin neg 0 0, false)
      else
        let md := readMantissa decDigit 10 (c :: r)
        some (roundScaled neg md.1 10 (readExponent 'e' md.2.2.2 - (md.2.2.1 : Int)))
    else if startsWithCI ['i', 'n', 'f'] (c :: r) then some (Double.inf neg, false)
    else if startsWithCI ['n', 'a', 'n'] (c :: r) then some (Double.nan neg, false)
    else none

/-- The exceptions that escape `processCmd`. -/
inductive Exception where
  /-- `std::out_of_range` thrown by `unordered_map::at` -/
  | mapAt
  /-- `std::invalid_argument` thrown by `std::stod` -/
  | stodInvalidArgument
  /-- `std::out_of_range` thrown by `std::stod` -/
  | stodOutOfRange
  deriving DecidableEq, Repr

/-- The function `std::stod(str)`: the value, or the exception thrown.  `strtod`
reads the characters of `str.c_str()`. -/
def stod (str : String) : Except Exception Double :=
  match strtod (str.data.takeWhile (fun c => c ≠ '\x00')) with
  | none => .error .stodInvalidArgument
  | some (v, erange) => if erange then .error .stodOutOfRange else .ok v

/-! ## The stock table (`namespace sm`) -/

/-- Modelled from the spec: the header `Stock.h` that declares `Stock` is not
among the sources.  The spec's LedgerEntry is a name and a balance together with
an exclusive lock and a change-notification condition; the code reads and
writes the members `name`, `balance`, `mutex` and `condVar`.  The lock and the
condition variable hold no data and are left out. -/
structure Stock where
  name : String
  balance : Double
  deriving DecidableEq, Repr

/-- The map `sm::stockMap`, from a stock's name to its entry. -/
abbrev StockMap := String → Option Stock

/-- The entry a fresh key is given by `stockMap[key]`.  Its content is never
observed: `createStock` assigns both members right after the insertion. -/
def Stock.init : Stock := ⟨"", dzero⟩

/-- The entry `stockMap[key]` refers to (inserted when the key is new). -/
def StockMap.entry (stockMap : StockMap) (key : String) : Stock :=
  (stockMap key).getD Stock.init

/-- The statement `stockMap[key].name = v`. -/
def StockMap.setName (stockMap : StockMap) (key v : String) : StockMap :=
  fun k => if k = key then some { stockMap.entry key with name := v } else stockMap k

/-- The statement `stockMap[key].balance = v`. -/
def StockMap.setBalance (stockMap : StockMap) (key : String) (v : Double) : StockMap :=
  fun k => if k = key then some { stockMap.entry key with balance := v } else stockMap k

/-- The function `sm::createStock`: the table and the stream after the call. -/
def createStock (stock : String) (amount : Double) (stockMap : StockMap) (os : String) :
    StockMap × String :=
  if stockMap stock = none then
    let m1 := stockMap.setName stock stock
    let m2 := m1.setBalance stock amount
    (m2, os ++ "Stock " ++ stock ++ " created with balance = " ++ fmtDouble amount)
  else
    (stockMap, os ++ "Stock " ++ stock ++ " already exists")

/-- How a call that can wait or throw ends, with the table and the stream at
that point. -/
inductive Result where
  /-- the call returned -/
  | returned (stockMap : StockMap) (os : String)
  /-- the call is suspended in `condVar.wait`: its predicate is false -/
  | waiting (stockMap : StockMap) (os : String)
  /-- an exception left the call -/
  | threw (e : Exception) (stockMap : StockMap) (os : String)
  /-- the C++ standard defines no behaviour (an iterator moved out of range) -/
  | undefined

/-- The function `sm::buyStock`.  `condVar.wait(lock, pred)` returns once
`pred()` holds and otherwise suspends the caller, which re-evaluates `pred` on
the table of that later time whenever it is woken; a suspended call has changed
nothing. -/
def buyStock (stock : String) (amount : Double) (stockMap : StockMap) (os : String) :
    Result :=
  if stockMap stock ≠ none then
    if fge (stockMap.entry stock).balance amount then
      .returned (stockMap.setBalance stock (fsub (stockMap.entry stock).balance amount))
        (os ++ "Stock " ++ stock ++ "'s balance updated")
    else .waiting stockMap os
  else
    .returned stockMap (os ++ "Stock not found")

/-- The function `sm::sellStock`. -/
def sellStock (stock : String) (amount : Double) (stockMap : StockMap) (os : String) :
    StockMap × String :=
  if stockMap stock ≠ none then
    (stockMap.setBalance stock (fadd (stockMap.entry stock).balance amount),
      os ++ "Stock " ++ stock ++ "'s balance updated")
  else
    (stockMap, os ++ "Stock not found")

/-- The function `sm::getStockStatus`. -/
def getStockStatus (stock : String) (stockMap : StockMap) (os : String) : StockMap × String :=
  match stockMap stock with
  | some entry => (stockMap, os ++ "Balance for stock " ++ stock ++ " = " ++ fmtDouble entry.balance)
  | none => (stockMap, os ++ "Stock not found")

/-! ## The command interpreter `processCmd` -/

/-- The map `paramMap` of URL parameters. -/
abbrev ParamMap := String → Option String

/-- The call `std::replace(url.begin(), url.end(), '&', ' ')`. -/
def replaceAmp (url : List Char) : List Char :=
  url.map (fun c => if c = '&' then ' ' else c)

/-- The words the loop `while (ss >> param)` extracts from the rest of the
stream; `cur` holds, in reverse, the characters of the word being read.  The
extraction skips white space, reads up to the next white space or the end, and
fails (ending the loop) when it finds no character. -/
def extractParams : List Char → List Char → List (List Char)
  | [], cur => if cur = [] then [] else [cur.reverse]
  | c :: cs, cur =>
    if isSpace c then
      if cur = [] then extractParams cs [] else cur.reverse :: extractParams cs []
    else extractParams cs (c :: cur)

/-- Key and value of one parameter: the text before the first `=` and the text
after it.  `none` when there is no `=`: then `param.find` returns `npos` and
`param.begin() + pos` is out of range. -/
def splitParam : List Char → Option (List Char × List Char)
  | [] => none
  | c :: cs =>
    if c = '=' then some ([], cs)
    else (splitParam cs).map (fun kv => (c :: kv.1, kv.2))

/-- The statement `paramMap[key] = val`. -/
def ParamMap.assign (paramMap : ParamMap) (key val : String) : ParamMap :=
  fun k => if k = key then some val else paramMap k

/-- The body of the parsing loop run on each parameter in turn, starting from
the map `paramMap`; `none` when a parameter has no `=`. -/
def fillParamMap : List (List Char) → ParamMap → Option ParamMap
  | [], paramMap => some paramMap
  | param :: rest, paramMap =>
    match splitParam param with
    | none => none
    | some (key, val) => fillParamMap rest (paramMap.assign (String.mk key) (String.mk val))

/-- The value of `paramMap.at(key)`, or the exception it throws. -/
def ParamMap.at (paramMap : ParamMap) (key : String) : Except Exception String :=
  match paramMap key with
  | some v => .ok v
  | none => .error .mapAt

/-- The amount argument of the `create` branch:
`it == paramMap.end() ? 0 : std::stod(paramMap.at("amount"))`. -/
def createAmount (paramMap : ParamMap) : Except Exception Double :=
  if paramMap "amount" = none then .ok dzero
  else (paramMap.at "amount").bind stod

/-- The amount argument of the `buy` and `sell` branches:
`std::stod(paramMap.at("amount"))`. -/
def tradeAmount (paramMap : ParamMap) : Except Exception Double :=
  (paramMap.at "amount").bind stod

/-- The dispatch of `processCmd` on the filled `paramMap`.  The arguments of a
call are evaluated before the call, the amount first and the stock name second
(the order g++ uses); an exception thrown by either leaves before the
`sm` function runs. -/
def dispatch (paramMap : ParamMap) (stockMap : StockMap) (os : String) : Result :=
  match paramMap.at "trans" with
  | .error e => .threw e stockMap os
  | .ok tr =>
    if tr = "create" then
      match createAmount paramMap, paramMap.at "stock" with
      | .error e, _ => .threw e stockMap os
      | .ok _, .error e => .threw e stockMap os
      | .ok amount, .ok stock =>
        .returned (createStock stock amount stockMap os).1 (createStock stock amount stockMap os).2
    else if tr = "buy" then
      match tradeAmount paramMap, paramMap.at "stock" with
      | .error e, _ => .threw e stockMap os
      | .ok _, .error e => .threw e stockMap os
      | .ok amount, .ok stock => buyStock stock amount stockMap os
    else if tr = "sell" then
      match tradeAmount paramMap, paramMap.at "stock" with
      | .error e, _ => .threw e stockMap os
      | .ok _, .error e => .threw e stockMap os
      | .ok amount, .ok stock =>
        .returned (sellStock stock amount stockMap os).1 (sellStock stock amount stockMap os).2
    else if tr = "status" then
      match paramMap.at "stock" with
      | .error e => .threw e stockMap os
      | .ok stock =>
        .returned (getStockStatus stock stockMap os).1 (getStockStatus stock stockMap os).2
    else .returned stockMap os

/-- The function `processCmd`. -/
def processCmd (cmd : String) (stockMap : StockMap) (os : String) : Result :=
  match fillParamMap (extractParams (replaceAmp cmd.data) []) (fun _ => none) with
  | none => .undefined
  | some paramMap => dispatch paramMap stockMap os

/-- The table carried by a result. -/
def Result.table? : Result → Option StockMap
  | .returned m _ => some m
  | .waiting m _ => some m
  | .threw _ m _ => some m
  | .undefined => none

/-- The text of the stream carried by a result. -/
def Result.output? : Result → Option String
  | .returned _ os => some os
  | .waiting _ os => some os
  | .threw _ _ os => some os
  | .undefined => none

/-- Whether an exception left the call. -/
def Result.raised : Result → Bool
  | .threw _ _ _ => true
  | _ => false

/-- Requests served one after another, each by `processCmd` on a fresh
`std::ostringstream` as in `serveClient`: the final table and the response
bodies; `none` when a call does not return. -/
def serveAll : List String → StockMap → Option (StockMap × List String)
  | [], stockMap => some (stockMap, [])
  | cmd :: rest, stockMap =>
    match processCmd cmd stockMap "" with
    | .returned m os => (serveAll rest m).map (fun r => (r.1, os :: r.2))
    | _ => none

/-! ## Sequences of completed trades on one entry -/

/-- A call of `sm::buyStock` or `sm::sellStock` with its amount. -/
inductive Trade where
  | buy (amount : Double)
  | sell (amount : Double)
  deriving DecidableEq, Repr

/-- Runs calls on the entry `stock` one after another, each on a fresh output
stream; the entry's lock serialises the bodies of the calls, so this is the
order in which they complete.  `none` when a buy in the sequence does not
complete where it stands (it would wait). -/
def runTrades (stock : String) : List Trade → StockMap → Option StockMap
  | [], stockMap => some stockMap
  | .buy amount :: rest, stockMap =>
    match buyStock stock amount stockMap "" with
    | .returned m _ => runTrades stock rest m
    | _ => none
  | .sell amount :: rest, stockMap =>
    runTrades stock rest (sellStock stock amount stockMap "").1

/-- The balance of `stock` in the table, when it has an entry. -/
def balanceOf (stockMap : StockMap) (stock : String) : Option Double :=
  (stockMap stock).map (fun entry => entry.balance)

/-- The amounts of the buys of a sequence, in order. -/
def bought : List Trade → List Double
  | [] => []
  | .buy a :: rest => a :: bought rest
  | .sell _ :: rest => bought rest

/-- The amounts of the sells of a sequence, in order. -/
def sold : List Trade → List Double
  | [] => []
  | .buy _ :: rest => sold rest
  | .sell a :: rest => a :: sold rest

/-- The sum of a list of doubles in double arithmetic, from the left. -/
def sumDouble (l : List Double) : Double := l.foldl fadd dzero

/-- The exact value of a finite double (`0` for infinities and NaN). -/
def Double.toRat : Double → ℚ
  | .fin s m e => (if s then -1 else 1) * (m : ℚ) * (2 : ℚ) ^ e
  | _ => 0

/-- The double is finite and its exact value is the integer `z`. -/
def Double.isInt (d : Double) (z : ℤ) : Prop :=
  (∃ s m e, d = .fin s m e) ∧ d.toRat = (z : ℚ)

/-- The amount of a trade. -/
def Trade.amount : Trade → Double
  | .buy a => a
  | .sell a => a

/-! ## The parsing contract in the words of the spec -/

/-- Separators of parameters: `&` and white space. -/
def isSeparator (c : Char) : Bool := c = '&' || isSpace c

/-- Spec: the pieces of the query between separators. -/
def specPieces : List Char → List (List Char)
  | [] => [[]]
  | c :: cs =>
    if isSeparator c then [] :: specPieces cs
    else
      match specPieces cs with
      | [] => [[c]]
      | p :: ps => (c :: p) :: ps

/-- Prepends the text `w` to the first piece of a list of pieces. -/
def attachFirst (w : List Char) : List (List Char) → List (List Char)
  | [] => [w]
  | p :: ps => (w ++ p) :: ps

/-- Spec: the parameters of a query, its non-empty pieces. -/
def specParams (query : List Char) : List (List Char) :=
  (specPieces query).filter (fun p => p ≠ [])

/-- Spec: the key of a parameter, the text before its first `=`. -/
def specKey (param : List Char) : List Char := param.takeWhile (fun c => c ≠ '=')

/-- Spec: the value of a parameter, all the text after its first `=`. -/
def specValue (param : List Char) : List Char := (param.dropWhile (fun c => c ≠ '=')).drop 1

/-- Spec: the mapping collected from the parameters; the last occurrence of a
key wins. -/
def specParamMap (query : String) : ParamMap :=
  fun key =>
    ((specParams query.data).filter (fun p => specKey p = key.data)).getLast?.map
      (fun p => String.mk (specValue p))

/-- Spec: a decimal numeral: an optional sign, then digits with at most one
decimal point among them and at least one digit. -/
def validDecimalText (v : String) : Bool :=
  let body := (readSign v.data).2
  let digits := body.filter (fun c => c ≠ '.')
  digits ≠ [] && digits.all (fun c => (decDigit c).isSome) && (body.filter (fun c => c = '.')).length ≤ 1

/-- Spec: the condition under which a query lacks a key it needs: `trans` is
missing, or `trans` is one of create, buy, sell, status and `stock` is missing,
or `trans` is buy or sell and `amount` is missing. -/
def missingKey (paramMap : ParamMap) : Prop :=
  paramMap "trans" = none
    ∨ ((paramMap "trans" = some "create" ∨ paramMap "trans" = some "buy"
          ∨ paramMap "trans" = some "sell" ∨ paramMap "trans" = some "status")
        ∧ paramMap "stock" = none)
    ∨ ((paramMap "trans" = some "buy" ∨ paramMap "trans" = some "sell")
        ∧ paramMap "amount" = none)

instance (paramMap : ParamMap) : Decidable (missingKey paramMap) := by
  unfold missingKey
  infer_instance

/-- A create query whose amount is the decimal numeral 1 followed by 309 zeros. -/
def hugeAmountQuery : String :=
  "trans=create&stock=X&amount=1" ++ String.mk (List.replicate 309 '0')

/-! ## Thread admission (`runServer` and `serveClient`) -/

/-- The admission state: the counter `sm::threadCount`, the workers created by
`std::thread thr(...)` in `runServer` that have not yet executed
`sm::threadCount++`, and the workers between `sm::threadCount++` and
`sm::threadCount--` in `serveClient`. -/
structure Server where
  threadCount : Int
  spawned : Nat
  running : Nat
  deriving DecidableEq, Repr

/-- The atomic steps of the dispatcher and of the workers. -/
inductive Event where
  /-- one iteration of the loop of `runServer`: the predicate
  `sm::threadCount < maxThreads` of the wait holds, a client is accepted and a
  detached thread is created for it -/
  | dispatch
  /-- a created worker executes `sm::threadCount++`, the first statement of
  `serveClient` -/
  | start
  /-- a worker executes `sm::threadCount--`, at the end of `serveClient` -/
  | finish
  deriving DecidableEq, Repr

/-- The state once the server starts: the counter is zero-initialised and no
worker exists. -/
def Server.init : Server := ⟨0, 0, 0⟩

/-- One step; `none` when the step is not enabled in the state. -/
def Server.step (maxThreads : Int) (s : Server) : Event → Option Server
  | .dispatch =>
    if s.threadCount < maxThreads then some { s with spawned := s.spawned + 1 } else none
  | .start =>
    if 0 < s.spawned then
      some { threadCount := s.threadCount + 1, spawned := s.spawned - 1, running := s.running + 1 }
    else none
  | .finish =>
    if 0 < s.running then
      some { s with threadCount := s.threadCount - 1, running := s.running - 1 }
    else none

/-- The state after a sequence of steps, when each is enabled in its turn. -/
def Server.run (maxThreads : Int) : Server → List Event → Option Server
  | s, [] => some s
  | s, ev :: rest =>
    match s.step maxThreads ev with
    | some s1 => Server.run maxThreads s1 rest
    | none => none

/-- The number of workers that have been spawned and have not yet finished. -/
def Server.unfinished (s : Server) : Nat := s.spawned + s.running

end Homework8

/-! ## Operations of `std::string` -/

namespace StdString

/-- The index of the first position of the text at which `p` holds of the rest
of the text. -/
def firstIndex (p : List Char → Bool) : List Char → Option Nat
  | [] => none
  | c :: cs => if p (c :: cs) then some 0 else (firstIndex p cs).map (fun i => i + 1)

/-- A search from position `pos` on: the index found, `none` for `npos`. -/
def findFrom (p : List Char → Bool) (str : List Char) (pos : Nat) : Option Nat :=
  (firstIndex p (str.drop pos)).map (fun i => pos + i)

/-- The test `q` applied to the first character of a text. -/
def atHead (q : Char → Bool) : List Char → Bool
  | c :: _ => q c
  | [] => false

/-- The call `str.find_first_of(chars, pos)`. -/
def find_first_of (chars str : List Char) (pos : Nat) : Option Nat :=
  findFrom (atHead (fun c => chars.contains c)) str pos

/-- The call `str.find(c, pos)` for a character `c`. -/
def findChar (c : Char) (str : List Char) (pos : Nat) : Option Nat :=
  findFrom (atHead (fun d => d == c)) str pos

/-- The call `str.find(pat, pos)` for a non-empty string `pat`. -/
def findStr (pat str : List Char) (pos : Nat) : Option Nat :=
  findFrom (fun s => pat.isPrefixOf s) str pos

/-- The call `str.substr(pos, n)`: `none` when it throws `std::out_of_range`
(`pos > str.size()`). -/
def substr (str : List Char) (pos n : Nat) : Option (List Char) :=
  if str.length < pos then none else some ((str.drop pos).take n)

/-- The call `str.replace(pos, n, s)` for `pos <= str.size()`. -/
def replace (str : List Char) (pos n : Nat) (s : List Char) : List Char :=
  str.take pos ++ s ++ (str.drop pos).drop n

/-- The value `std::string::npos`, the largest `size_t`. -/
def npos : Nat := 2 ^ 64 - 1

/-- The `size_t` a search returns: the index, or `npos`. -/
def sizeT (found : Option Nat) : Nat := found.getD npos

end StdString

namespace Homework8

/-! ## The decoder `url_decode` -/

/-- The exceptions that can leave `url_decode`. -/
inductive DecodeException where
  /-- `std::invalid_argument` thrown by `std::stoi` -/
  | stoiInvalidArgument
  /-- `std::out_of_range` thrown by `std::stoi` -/
  | stoiOutOfRange
  /-- `std::out_of_range` thrown by `at` or `substr` -/
  | outOfRange
  deriving DecidableEq, Repr

/-- How a run of `url_decode` ends: with the decoded text, with an exception,
or not within the steps allowed to the model of its loop. -/
inductive Decoded (α : Type) where
  | returned (str : α)
  | threw (e : DecodeException)
  | unfinished
  deriving DecidableEq, Repr

/-- Applies `f` to the text returned. -/
def Decoded.map {α β : Type} (f : α → β) : Decoded α → Decoded β
  | .returned s => .returned (f s)
  | .threw e => .threw e
  | .unfinished => .unfinished

/-- The function `strtol(text, nullptr, 16)` of glibc: white space, an optional
sign, an optional `0x` or `0X` when a hexadecimal digit follows it, then
hexadecimal digits; `none` when there is no digit to convert. -/
def strtol16 (text : List Char) : Option Int :=
  let sr := readSign (text.dropWhile isSpace)
  let body := match sr.2 with
    | z :: x :: d :: rest =>
      if z = '0' ∧ (x = 'x' ∨ x = 'X') ∧ (hexDigit d).isSome then d :: rest else sr.2
    | s => s
  let r := readDigits hexDigit 16 body 0 0
  if r.2.1 = 0 then none else some (if sr.1 then - (r.1 : Int) else (r.1 : Int))

/-- The call `std::stoi(str, nullptr, 16)`: the `int`, or the exception thrown
(no conversion, or a value outside the range of `int`). -/
def stoi16 (str : List Char) : Except DecodeException Int :=
  match strtol16 (str.takeWhile (fun c => c ≠ '\x00')) with
  | none => .error .stoiInvalidArgument
  | some v =>
    if v < -(2 ^ 31) ∨ 2 ^ 31 - 1 < v then .error .stoiOutOfRange else .ok v

/-- The conversion of an `int` to `char` in `char ascii = ...`: the byte
`v mod 256`. -/
def toChar (v : Int) : Char := Char.ofNat (v % 256).toNat

/-- The loop of `url_decode` on the string `str` with the scanning position
`pos`; the first argument bounds the number of iterations. -/
def urlDecodeLoop : Nat → List Char → Nat → Decoded (List Char)
  | 0, _, _ => .unfinished
  | fuel + 1, str, pos =>
    match StdString.find_first_of ['%', '+'] str pos with
    | none => .returned str
    | some p =>
      match str[p]? with
      | none => .threw .outOfRange
      | some c =>
        if c = '+' then urlDecodeLoop fuel (StdString.replace str p 1 [' ']) (p + 1)
        else if c = '%' then
          match StdString.substr str (p + 1) 2 with
          | none => .threw .outOfRange
          | some hex =>
            match stoi16 hex with
            | .error e => .threw e
            | .ok v => urlDecodeLoop fuel (StdString.replace str p 3 [toChar v]) (p + 1)
        else urlDecodeLoop fuel str (p + 1)

/-- The function `url_decode`.  Each iteration of its loop moves the position
past one more character, so `str.size() + 1` iterations are allowed. -/
def url_decode (str : String) : Decoded String :=
  (urlDecodeLoop (str.length + 1) str.data 0).map String.mk

/-- What the loop of `url_decode` makes of the text from its scanning position
on: the characters before the position are final. -/
def decodeSuffix : List Char → Decoded (List Char)
  | [] => .returned []
  | c :: rest =>
    if c = '+' then (decodeSuffix rest).map (fun r => ' ' :: r)
    else if c = '%' then
      match stoi16 (rest.take 2) with
      | .error e => .threw e
      | .ok v => (decodeSuffix (rest.drop 2)).map (fun r => toChar v :: r)
    else (decodeSuffix rest).map (fun r => c :: r)
termination_by s => s.length
decreasing_by
  all_goals simp_wf
  all_goals omega

/-- Spec: every `%` of the text, read from left to right, is followed by two
hexadecimal digits. -/
def wellEncoded : List Char → Bool
  | [] => true
  | c :: rest =>
    if c = '%' then
      match rest with
      | a :: b :: rest2 => (hexDigit a).isSome && (hexDigit b).isSome && wellEncoded rest2
      | _ => false
    else wellEncoded rest

/-- Spec: the text with each `%XX` replaced by the byte of hexadecimal value
`XX` and each `+` by a space, every other character kept, in order. -/
def specDecode : List Char → List Char
  | [] => []
  | c :: rest =>
    if c = '+' then ' ' :: specDecode rest
    else if c = '%' then
      match rest with
      | a :: b :: rest2 =>
        Char.ofNat (16 * (hexDigit a).getD 0 + (hexDigit b).getD 0) :: specDecode rest2
      | _ => c :: rest
    else c :: specDecode rest

end Homework8

/-! ## The URL splitter `breakDownURL` (Homeworks/Homework4/homework4/liererkt_hw4.cpp) -/

namespace Homework4

open StdString

/-- The function `breakDownURL`: the tuple of host name, port and path, or
`none` when a `substr` throws `std::out_of_range`.  Positions are `size_t`:
sums and differences are taken modulo `2^64` and a failed search is `npos`. -/
def breakDownURL (url : String) : Option (String × String × String) :=
  let hostStart := (sizeT (findStr ['/', '/'] url.data 0) + 2) % 2 ^ 64
  let pathStart := sizeT (findChar '/' url.data hostStart)
  let portPos := sizeT (findChar ':' url.data hostStart)
  let hostEnd := if portPos = npos then pathStart else portPos
  match substr url.data hostStart ((hostEnd + 2 ^ 64 - hostStart) % 2 ^ 64) with
  | none => none
  | some hostName =>
    match substr url.data pathStart npos with
    | none => none
    | some path =>
      if portPos ≠ npos then
        match substr url.data ((portPos + 1) % 2 ^ 64)
            ((pathStart + 2 ^ 64 - portPos + 2 ^ 64 - 1) % 2 ^ 64) with
        | none => none
        | some port => some (String.mk hostName, String.mk port, String.mk path)
      else some (String.mk hostName, "80", String.mk path)

end Homework4

/-! ## Theorems -/

namespace Homework8

/-! ### Signs of the results of double arithmetic -/

theorem roundPos_fst_cases (neg : Bool) (num den : Nat) :
    (roundPos neg num den).1 = .inf neg ∨ ∃ m e, (roundPos neg num den).1 = .fin neg m e := by
  unfold roundPos
  simp only []
  split_ifs <;> simp

theorem alignedInt_not (t : Bool) (n : Nat) (f emin : Int) :
    alignedInt (!t) n f emin = - alignedInt t n f emin := by
  cases t <;> simp [alignedInt]

theorem bitLenAux_zero (fuel : Nat) : bitLenAux fuel 0 = 0 := by
  cases fuel <;> simp [bitLenAux]

theorem bitLenAux_eq (L : Nat) : ∀ n fuel, 2 ^ L ≤ n → n < 2 ^ (L + 1) → n ≤ fuel →
    bitLenAux fuel n = L + 1 := by
  induction L with
  | zero =>
    intro n fuel h1 h2 h3
    have hn : n = 1 := by omega
    subst hn
    cases fuel with
    | zero => omega
    | succ f => simp [bitLenAux, bitLenAux_zero]
  | succ L ih =>
    intro n fuel h1 h2 h3
    have h1' : 2 * 2 ^ L ≤ n := by rw [pow_succ] at h1; omega
    have h2' : n < 2 * 2 ^ (L + 1) := by rw [pow_succ] at h2; omega
    have hpos : 0 < 2 ^ L := Nat.pow_pos (by norm_num)
    cases fuel with
    | zero => omega
    | succ f =>
      have hn0 : n ≠ 0 := by omega
      simp only [bitLenAux, hn0, if_false]
      rw [ih (n / 2) f (by omega) (by omega) (by omega)]

theorem bitLen_eq (n L : Nat) (h1 : 2 ^ L ≤ n) (h2 : n < 2 ^ (L + 1)) : bitLen n = L + 1 :=
  bitLenAux_eq L n n h1 h2 le_rfl

theorem divRoundEven_mul (q d : Nat) (hd : 0 < d) : divRoundEven (q * d) d = q := by
  unfold divRoundEven
  simp [Nat.mul_div_cancel _ hd, Nat.mul_mod_left, hd]

theorem binExp_exact (N k L : Nat) (h1 : 2 ^ L ≤ N) (h2 : N < 2 ^ (L + 1)) :
    binExp (N * 2 ^ k) (2 ^ k) = (L : Int) - 52 := by
  have hb1 : bitLen (N * 2 ^ k) = L + k + 1 := by
    apply bitLen_eq
    · rw [pow_add]; exact Nat.mul_le_mul_right _ h1
    · have : 2 ^ (L + k + 1) = 2 ^ (L + 1) * 2 ^ k := by ring
      rw [this]
      exact Nat.mul_lt_mul_of_pos_right h2 (Nat.pow_pos (by norm_num))
  have hb2 : bitLen (2 ^ k) = k + 1 := bitLen_eq _ _ le_rfl (Nat.pow_lt_pow_right (by norm_num) (by omega))
  unfold binExp
  simp only [hb1, hb2]
  have hE : ((L + k + 1 : Nat) : Int) - ((k + 1 : Nat) : Int) - 52 + 52 = (L : Int) := by
    push_cast; ring
  have hE' : ((L + k + 1 : Nat) : Int) - ((k + 1 : Nat) : Int) - 52 = (L : Int) - 52 := by
    push_cast; ring
  rw [hE, hE']
  have hs : scale2 (N * 2 ^ k) (2 ^ k) (L : Int) = (N * 2 ^ k, 2 ^ k * 2 ^ L) := by
    simp [scale2]
  rw [hs]
  have : 2 ^ k * 2 ^ L ≤ N * 2 ^ k := by
    rw [Nat.mul_comm]; exact Nat.mul_le_mul_right _ h1
  simp [this]

theorem scale2_div (N k j : Nat) :
    divRoundEven (scale2 (N * 2 ^ k) (2 ^ k) (-(j : Int))).1 (scale2 (N * 2 ^ k) (2 ^ k) (-(j : Int))).2
      = N * 2 ^ j := by
  have hk : 0 < 2 ^ k := Nat.pow_pos (by norm_num)
  by_cases hj : j = 0
  · subst hj
    simp only [scale2, Nat.cast_zero, neg_zero, le_refl, if_true, Int.toNat_zero, pow_zero, mul_one]
    exact divRoundEven_mul N (2 ^ k) hk
  · have hneg : ¬ (0 : Int) ≤ -(j : Int) := by omega
    simp only [scale2, hneg, if_false, neg_neg, Int.toNat_natCast]
    have : N * 2 ^ k * 2 ^ j = (N * 2 ^ j) * 2 ^ k := by ring
    rw [this]
    exact divRoundEven_mul _ _ hk

theorem roundPos_exact (neg : Bool) (N k : Nat) (hN1 : 1 ≤ N) (hN2 : N ≤ 2 ^ 53) :
    ∃ M E, (roundPos neg (N * 2 ^ k) (2 ^ k)).1 = .fin neg M E ∧ (M : ℚ) * (2 : ℚ) ^ E = N := by
  have hk : 0 < 2 ^ k := Nat.pow_pos (by norm_num)
  rcases Nat.lt_or_eq_of_le hN2 with hlt | heq
  · have h1 : 2 ^ Nat.log 2 N ≤ N := Nat.pow_log_le_self 2 (by omega)
    have h2 : N < 2 ^ (Nat.log 2 N + 1) := Nat.lt_pow_succ_log_self (by norm_num) N
    have hL : Nat.log 2 N ≤ 52 := by
      by_contra hcon
      have : 2 ^ 53 ≤ 2 ^ Nat.log 2 N := Nat.pow_le_pow_right (by norm_num) (by omega)
      omega
    obtain ⟨j, hj⟩ : ∃ j : ℕ, Nat.log 2 N + j = 52 := ⟨52 - Nat.log 2 N, by omega⟩
    have hE : binExp (N * 2 ^ k) (2 ^ k) = -(j : Int) := by
      rw [binExp_exact N k _ h1 h2]; omega
    have hmax : max (-(j : Int)) (-1074) = -(j : Int) := max_eq_left (by omega)
    have hq1 : 2 ^ 52 ≤ N * 2 ^ j := by
      calc 2 ^ 52 = 2 ^ Nat.log 2 N * 2 ^ j := by rw [← pow_add, hj]
        _ ≤ N * 2 ^ j := Nat.mul_le_mul_right _ h1
    have hq2 : N * 2 ^ j < 2 ^ 53 := by
      calc N * 2 ^ j < 2 ^ (Nat.log 2 N + 1) * 2 ^ j :=
            Nat.mul_lt_mul_of_pos_right h2 (Nat.pow_pos (by norm_num))
        _ = 2 ^ 53 := by rw [← pow_add]; congr 1; omega
    refine ⟨N * 2 ^ j, -(j : Int), ?_, ?_⟩
    · unfold roundPos
      simp only [hE, hmax, scale2_div]
      have e1 : ¬ (N * 2 ^ j = 2 ^ 53) := by omega
      have e2 : ¬ (N * 2 ^ j = 0) := by omega
      have e3 : ¬ ((971 : Int) < -(j : Int)) := by omega
      simp only [e1, e2, e3, if_false]
    · push_cast
      rw [mul_assoc, zpow_neg, ← zpow_natCast]
      have : (2 : ℚ) ^ (j : ℤ) ≠ 0 := zpow_ne_zero _ (by norm_num)
      field_simp
  · subst heq
    have hE : binExp (2 ^ 53 * 2 ^ k) (2 ^ k) = 1 := by
      rw [binExp_exact (2 ^ 53) k 53 le_rfl (Nat.pow_lt_pow_right (by norm_num) (by omega))]
      norm_num
    have hmax : max (1 : Int) (-1074) = 1 := max_eq_left (by omega)
    have hs : scale2 (2 ^ 53 * 2 ^ k) (2 ^ k) 1 = (2 ^ 52 * (2 ^ k * 2), 2 ^ k * 2) := by
      simp only [scale2]
      norm_num
      ring
    refine ⟨2 ^ 52, 1, ?_, by norm_num⟩
    unfold roundPos
    simp only [hE, hmax, hs, divRoundEven_mul _ _ (show 0 < 2 ^ k * 2 by omega)]
    norm_num

theorem alignedInt_cast (s : Bool) (m : Nat) (e emin : Int) (h : emin ≤ e) :
    ((alignedInt s m e emin : ℤ) : ℚ) = (Double.fin s m e).toRat * (2 : ℚ) ^ (-emin) := by
  have h2 : (2 : ℚ) ≠ 0 := by norm_num
  have hpow : ((2 : ℚ) ^ (e - emin).toNat) = (2 : ℚ) ^ e * (2 : ℚ) ^ (-emin) := by
    rw [← zpow_natCast, Int.toNat_of_nonneg (by omega), ← zpow_add₀ h2]
    congr 1
  cases s <;> simp [alignedInt, Double.toRat, hpow] <;> ring

theorem toRat_signed (neg : Bool) (M : Nat) (E : Int) (N : Nat) (h : (M : ℚ) * (2 : ℚ) ^ E = N) :
    (Double.fin neg M E).toRat = (if neg then -1 else 1) * (N : ℚ) := by
  simp only [Double.toRat]
  rw [mul_assoc, h]

theorem fadd_fin_exact (s : Bool) (m : Nat) (e : Int) (t : Bool) (n : Nat) (f : Int)
    (za zb : ℤ) (ha : (Double.fin s m e).toRat = za) (hb : (Double.fin t n f).toRat = zb)
    (hbound : (za + zb).natAbs ≤ 2 ^ 53) :
    (fadd (.fin s m e) (.fin t n f)).isInt (za + zb) := by
  have h2 : (2 : ℚ) ≠ 0 := by norm_num
  have hi : ((alignedInt s m e (min e f) + alignedInt t n f (min e f) : ℤ) : ℚ)
      = ((za + zb : ℤ) : ℚ) * (2 : ℚ) ^ (-(min e f)) := by
    push_cast
    rw [alignedInt_cast _ _ _ _ (min_le_left e f), alignedInt_cast _ _ _ _ (min_le_right e f),
      ha, hb]
    ring
  simp only [fadd]
  generalize hidef : alignedInt s m e (min e f) + alignedInt t n f (min e f) = i at hi
  generalize min e f = emin at hi
  split_ifs with hz hpos
  · -- exact zero
    subst hz
    have : ((za + zb : ℤ) : ℚ) = 0 := by
      have hne : (2 : ℚ) ^ (-emin) ≠ 0 := zpow_ne_zero _ h2
      have := hi.symm
      simp only [Int.cast_zero] at this
      rcases mul_eq_zero.1 this with h | h
      · exact h
      · exact absurd h hne
    refine ⟨⟨_, _, _, rfl⟩, ?_⟩
    simp [Double.toRat, this]
  · -- non-negative common exponent
    have hint : i * 2 ^ emin.toNat = za + zb := by
      have : ((i * 2 ^ emin.toNat : ℤ) : ℚ) = ((za + zb : ℤ) : ℚ) := by
        push_cast
        rw [hi, mul_assoc, ← zpow_natCast, Int.toNat_of_nonneg hpos, ← zpow_add₀ h2]
        simp
      exact_mod_cast this
    have hN : i.natAbs * 2 ^ emin.toNat = (za + zb).natAbs := by
      rw [← hint, Int.natAbs_mul, Int.natAbs_pow]
      rfl
    have hN1 : 1 ≤ (za + zb).natAbs := by
      rw [← hN]
      have : 0 < i.natAbs := Int.natAbs_pos.2 hz
      have : 0 < 2 ^ emin.toNat := Nat.pow_pos (by norm_num)
      exact Nat.mul_pos ‹0 < i.natAbs› this
    obtain ⟨M, E, hr, hv⟩ := roundPos_exact (decide (i < 0)) (za + zb).natAbs 0 hN1 hbound
    simp only [pow_zero, mul_one] at hr
    rw [hN, hr]
    refine ⟨⟨_, _, _, rfl⟩, ?_⟩
    rw [toRat_signed _ _ _ _ hv]
    have hsign : (i < 0) ↔ (za + zb < 0) := by
      rw [← hint]
      have hp : (0 : ℤ) < 2 ^ emin.toNat := by positivity
      constructor
      · intro h; exact mul_neg_of_neg_of_pos h hp
      · intro h; by_contra hc; push_neg at hc
        have := mul_nonneg hc hp.le
        omega
    by_cases hneg : za + zb < 0
    · have : i < 0 := hsign.2 hneg
      simp only [this, decide_True, if_true]
      have : ((za + zb).natAbs : ℤ) = -(za + zb) := by omega
      rw [← Int.cast_natCast (R := ℚ), this]
      push_cast
      ring
    · have : ¬ i < 0 := fun h => hneg (hsign.1 h)
      simp only [this, decide_False, if_false, Bool.false_eq_true]
      have : ((za + zb).natAbs : ℤ) = (za + zb) := by omega
      rw [← Int.cast_natCast (R := ℚ), this]
      push_cast
      ring
  · -- negative common exponent
    have hneg0 : emin < 0 := by omega
    have hint : i = (za + zb) * 2 ^ (-emin).toNat := by
      have : ((i : ℤ) : ℚ) = (((za + zb) * 2 ^ (-emin).toNat : ℤ) : ℚ) := by
        push_cast
        rw [hi, ← zpow_natCast (2 : ℚ), Int.toNat_of_nonneg (by omega)]
        push_cast
        ring
      exact_mod_cast this
    have hN : i.natAbs = (za + zb).natAbs * 2 ^ (-emin).toNat := by
      rw [hint, Int.natAbs_mul, Int.natAbs_pow]
      rfl
    have hN1 : 1 ≤ (za + zb).natAbs := by
      by_contra hc
      have : (za + zb).natAbs = 0 := by omega
      rw [this, zero_mul] at hN
      exact hz (Int.natAbs_eq_zero.1 hN)
    obtain ⟨M, E, hr, hv⟩ :=
      roundPos_exact (decide (i < 0)) (za + zb).natAbs (-emin).toNat hN1 hbound
    rw [hN, hr]
    refine ⟨⟨_, _, _, rfl⟩, ?_⟩
    rw [toRat_signed _ _ _ _ hv]
    have hsign : (i < 0) ↔ (za + zb < 0) := by
      rw [hint]
      have hp : (0 : ℤ) < 2 ^ (-emin).toNat := by positivity
      constructor
      · intro h; by_contra hc; push_neg at hc
        have := mul_nonneg hc hp.le
        omega
      · intro h; exact mul_neg_of_neg_of_pos h hp
    by_cases hneg : za + zb < 0
    · have : i < 0 := hsign.2 hneg
      simp only [this, decide_True, if_true]
      have : ((za + zb).natAbs : ℤ) = -(za + zb) := by omega
      rw [← Int.cast_natCast (R := ℚ), this]
      push_cast
      ring
    · have : ¬ i < 0 := fun h => hneg (hsign.1 h)
      simp only [this, decide_False, if_false, Bool.false_eq_true]
      have : ((za + zb).natAbs : ℤ) = (za + zb) := by omega
      rw [← Int.cast_natCast (R := ℚ), this]
      push_cast
      ring

theorem fadd_exact (a b : Double) (za zb : ℤ) (ha : a.isInt za) (hb : b.isInt zb)
    (hbound : (za + zb).natAbs ≤ 2 ^ 53) : (fadd a b).isInt (za + zb) := by
  obtain ⟨⟨s, m, e, rfl⟩, ha2⟩ := ha
  obtain ⟨⟨t, n, f, rfl⟩, hb2⟩ := hb
  exact fadd_fin_exact s m e t n f za zb ha2 hb2 hbound

theorem fsub_exact (a b : Double) (za zb : ℤ) (ha : a.isInt za) (hb : b.isInt zb)
    (hbound : (za - zb).natAbs ≤ 2 ^ 53) : (fsub a b).isInt (za - zb) := by
  obtain ⟨⟨t, n, f, rfl⟩, hb2⟩ := hb
  have hneg : (fneg (.fin t n f)).isInt (-zb) := by
    refine ⟨⟨_, _, _, rfl⟩, ?_⟩
    have : (Double.fin (!t) n f).toRat = - (Double.fin t n f).toRat := by
      cases t <;> simp [Double.toRat]
    simp only [fneg]
    rw [this, hb2]
    push_cast
    ring
  have := fadd_exact a (fneg (.fin t n f)) za (-zb) ha hneg (by rwa [← sub_eq_add_neg])
  rw [← sub_eq_add_neg] at this
  simpa [fsub] using this

/-! ### The stock table -/

theorem createStock_new_entry (stockMap : StockMap) (stock : String) (amount : Double)
    (os : String) (h : stockMap stock = none) :
    (createStock stock amount stockMap os).1 stock = some ⟨stock, amount⟩ := by
  simp [createStock, h, StockMap.setName, StockMap.setBalance, StockMap.entry]

theorem buyStock_present (stockMap : StockMap) (stock : String) (amount : Double) (os : String)
    (entry : Stock) (h : stockMap stock = some entry) :
    buyStock stock amount stockMap os
      = if fge entry.balance amount = true then
          .returned (stockMap.setBalance stock (fsub entry.balance amount))
            (os ++ "Stock " ++ stock ++ "'s balance updated")
        else .waiting stockMap os := by
  simp [buyStock, h, StockMap.entry]

theorem sellStock_present (stockMap : StockMap) (stock : String) (amount : Double) (os : String)
    (entry : Stock) (h : stockMap stock = some entry) :
    sellStock stock amount stockMap os
      = (stockMap.setBalance stock (fadd entry.balance amount),
          os ++ "Stock " ++ stock ++ "'s balance updated") := by
  simp [sellStock, h, StockMap.entry]

theorem setBalance_same (stockMap : StockMap) (stock : String) (v : Double) (entry : Stock)
    (h : stockMap stock = some entry) :
    (stockMap.setBalance stock v) stock = some ⟨entry.name, v⟩ := by
  simp [StockMap.setBalance, StockMap.entry, h]

theorem amounts_nonneg (trades : List Trade)
    (hz : ∀ t ∈ trades, ∃ z : ℤ, 0 ≤ z ∧ t.amount.isInt z) :
    0 ≤ (trades.map (fun t => t.amount.toRat)).sum := by
  apply List.sum_nonneg
  intro x hx
  obtain ⟨t, ht, rfl⟩ := List.mem_map.1 hx
  obtain ⟨z, hz0, hz1⟩ := hz t ht
  rw [hz1.2]
  exact_mod_cast hz0

theorem natAbs_le_of_abs (z : ℤ) (h : |(z : ℚ)| ≤ 2 ^ 53) : z.natAbs ≤ 2 ^ 53 := by
  have h1 : ((z.natAbs : ℕ) : ℚ) ≤ 2 ^ 53 := by
    rw [Nat.cast_natAbs]
    push_cast
    exact h
  exact_mod_cast h1

theorem raised_returned (m : StockMap) (os : String) : (Result.returned m os).raised = false := rfl

theorem raised_threw (e : Exception) (m : StockMap) (os : String) :
    (Result.threw e m os).raised = true := rfl

theorem raised_buyStock (stock : String) (amount : Double) (m : StockMap) (os : String) :
    (buyStock stock amount m os).raised = false := by
  unfold buyStock
  split_ifs <;> rfl

/-! ### The parsing loop against the parsing contract -/

theorem isSpace_replaceAmp (c : Char) :
    isSpace (if c = '&' then ' ' else c) = isSeparator c := by
  by_cases h : c = '&'
  · subst h; decide
  · simp [isSeparator, h]

theorem specPieces_ne_nil (cs : List Char) : specPieces cs ≠ [] := by
  cases cs with
  | nil => simp [specPieces]
  | cons c cs =>
    simp only [specPieces]
    split_ifs
    · simp
    · split <;> simp

theorem attachFirst_nil (l : List (List Char)) (h : l ≠ []) : attachFirst [] l = l := by
  cases l with
  | nil => exact absurd rfl h
  | cons p ps => simp [attachFirst]

/-- The words read by `while (ss >> param)` after `std::replace` are the
non-empty pieces between separators; `cur` is the word under way. -/
theorem extractParams_eq (cs cur : List Char) :
    extractParams (replaceAmp cs) cur
      = (attachFirst cur.reverse (specPieces cs)).filter (fun p => p ≠ []) := by
  induction cs generalizing cur with
  | nil =>
    by_cases hc : cur = [] <;>
      simp [replaceAmp, extractParams, specPieces, attachFirst, hc, List.filter]
  | cons c cs ih =>
    have hrep : replaceAmp (c :: cs) = (if c = '&' then ' ' else c) :: replaceAmp cs := by
      simp [replaceAmp]
    rw [hrep]
    simp only [extractParams, isSpace_replaceAmp]
    by_cases hs : isSeparator c = true
    · have ih0 := ih []
      rw [List.reverse_nil, attachFirst_nil _ (specPieces_ne_nil cs)] at ih0
      by_cases hc : cur = []
      · simp [hs, hc, specPieces, attachFirst, List.filter, ih0]
      · simp [hs, hc, specPieces, attachFirst, List.filter, ih0]
    · have hc : (if c = '&' then ' ' else c) = c := by
        have : c ≠ '&' := by
          intro h
          apply hs
          subst h
          decide
        simp [this]
      simp only [hs, hc, specPieces]
      rw [ih (c :: cur)]
      cases hp : specPieces cs with
      | nil => exact absurd hp (specPieces_ne_nil cs)
      | cons p ps => simp [attachFirst]

theorem extractParams_eq_specParams (cs : List Char) :
    extractParams (replaceAmp cs) [] = specParams cs := by
  rw [extractParams_eq, List.reverse_nil, attachFirst_nil _ (specPieces_ne_nil cs)]
  rfl

/-- A parameter with an `=` is split at the first one. -/
theorem splitParam_of_mem (p : List Char) (h : '=' ∈ p) :
    splitParam p = some (specKey p, specValue p) := by
  induction p with
  | nil => simp at h
  | cons c cs ih =>
    by_cases hc : c = '='
    · subst hc
      simp [splitParam, specKey, specValue]
    · have hmem : '=' ∈ cs := by
        rcases List.mem_cons.1 h with h1 | h1
        · exact absurd h1.symm hc
        · exact h1
      simp [splitParam, hc, ih hmem, specKey, specValue]

theorem string_mk_eq_iff (k : List Char) (key : String) : key = String.mk k ↔ k = key.data := by
  constructor
  · intro h; subst h; rfl
  · intro h; subst h; rfl

/-- The loop `paramMap[key] = val` leaves, for each key, the value of the last
parameter with that key, or the value the map had before. -/
theorem fillParamMap_spec (ps : List (List Char)) (pm0 : ParamMap)
    (h : ∀ p ∈ ps, '=' ∈ p) :
    fillParamMap ps pm0
      = some (fun key =>
          match (ps.filter (fun p => specKey p = key.data)).getLast? with
          | some p => some (String.mk (specValue p))
          | none => pm0 key) := by
  induction ps generalizing pm0 with
  | nil => simp [fillParamMap]
  | cons p rest ih =>
    have hp : '=' ∈ p := h p (List.mem_cons_self _ _)
    have hrest : ∀ q ∈ rest, '=' ∈ q := fun q hq => h q (List.mem_cons_of_mem _ hq)
    simp only [fillParamMap, splitParam_of_mem p hp]
    rw [ih _ hrest]
    congr 1
    funext key
    by_cases hk : specKey p = key.data
    · have hk2 : key = String.mk (specKey p) := (string_mk_eq_iff _ _).2 hk
      rw [List.filter_cons_of_pos (by simpa using hk)]
      cases hl : (rest.filter (fun p => specKey p = key.data)) with
      | nil => simp [ParamMap.assign, hk2]
      | cons q qs =>
        rw [List.getLast?_cons_cons]
        cases hq : (q :: qs).getLast? with
        | none => simp at hq
        | some r => rfl
    · have hk2 : ¬ key = String.mk (specKey p) := fun e => hk ((string_mk_eq_iff _ _).1 e)
      rw [List.filter_cons_of_neg (by simpa using hk)]
      cases hl : (rest.filter (fun p => specKey p = key.data)).getLast? with
      | none => simp [ParamMap.assign, hk2]
      | some q => rfl

/-- On a query whose parameters all contain `=`, `processCmd` dispatches on the
mapping of the parsing contract. -/
theorem processCmd_eq_dispatch (cmd : String) (stockMap : StockMap) (os : String)
    (h : ∀ p ∈ specParams cmd.data, '=' ∈ p) :
    processCmd cmd stockMap os = dispatch (specParamMap cmd) stockMap os := by
  unfold processCmd
  rw [extractParams_eq_specParams, fillParamMap_spec _ _ h]
  simp only
  congr 1
  funext key
  simp only [specParamMap]
  cases (List.filter (fun p => decide (specKey p = key.data)) (specParams cmd.data)).getLast? <;> rfl

/-! ### Queries built around a name and an amount -/

theorem specPieces_word (w : List Char) (hw : ∀ c ∈ w, isSeparator c = false) :
    specPieces w = [w] := by
  induction w with
  | nil => rfl
  | cons c cs ih =>
    have hc : isSeparator c = false := hw c (List.mem_cons_self _ _)
    have hcs : ∀ d ∈ cs, isSeparator d = false := fun d hd => hw d (List.mem_cons_of_mem _ hd)
    simp [specPieces, hc, ih hcs]

theorem specPieces_append_sep (w rest : List Char) (c : Char)
    (hw : ∀ d ∈ w, isSeparator d = false) (hc : isSeparator c = true) :
    specPieces (w ++ c :: rest) = w :: specPieces rest := by
  induction w with
  | nil => simp [specPieces, hc]
  | cons a as ih =>
    have ha : isSeparator a = false := hw a (List.mem_cons_self _ _)
    have has : ∀ d ∈ as, isSeparator d = false := fun d hd => hw d (List.mem_cons_of_mem _ hd)
    simp [specPieces, ha, ih has]

theorem splitParam_kv (k v : List Char) (hk : '=' ∉ k) :
    splitParam (k ++ '=' :: v) = some (k, v) := by
  induction k with
  | nil => simp [splitParam]
  | cons a as ih =>
    have ha : a ≠ '=' := fun e => hk (by simp [e])
    have has : '=' ∉ as := fun e => hk (List.mem_cons_of_mem _ e)
    simp [splitParam, ha, ih has]

theorem noSep_param (K V : String) (hK : ∀ c ∈ K.data, isSeparator c = false)
    (hV : ∀ c ∈ V.data, isSeparator c = false) :
    ∀ c ∈ K.data ++ '=' :: V.data, isSeparator c = false := by
  intro c hc
  rcases List.mem_append.1 hc with h | h
  · exact hK c h
  · rcases List.mem_cons.1 h with h | h
    · subst h; decide
    · exact hV c h

/-- The map `processCmd` fills from a query of three parameters `K=V`. -/
theorem processCmd_three (cmd K1 V1 K2 V2 K3 V3 : String) (stockMap : StockMap) (os : String)
    (hdata : cmd.data = (K1.data ++ '=' :: V1.data) ++ '&' ::
      ((K2.data ++ '=' :: V2.data) ++ '&' :: (K3.data ++ '=' :: V3.data)))
    (hK1 : ∀ c ∈ K1.data, isSeparator c = false) (hV1 : ∀ c ∈ V1.data, isSeparator c = false)
    (hK2 : ∀ c ∈ K2.data, isSeparator c = false) (hV2 : ∀ c ∈ V2.data, isSeparator c = false)
    (hK3 : ∀ c ∈ K3.data, isSeparator c = false) (hV3 : ∀ c ∈ V3.data, isSeparator c = false)
    (e1 : '=' ∉ K1.data) (e2 : '=' ∉ K2.data) (e3 : '=' ∉ K3.data) :
    processCmd cmd stockMap os
      = dispatch (ParamMap.assign (ParamMap.assign (ParamMap.assign (fun _ => none) K1 V1) K2 V2) K3 V3)
          stockMap os := by
  unfold processCmd
  rw [extractParams_eq_specParams, hdata]
  unfold specParams
  rw [specPieces_append_sep _ _ _ (noSep_param K1 V1 hK1 hV1) (by decide),
    specPieces_append_sep _ _ _ (noSep_param K2 V2 hK2 hV2) (by decide),
    specPieces_word _ (noSep_param K3 V3 hK3 hV3)]
  simp [fillParamMap, splitParam_kv, e1, e2, e3]

/-- The map `processCmd` fills from a query of two parameters `K=V`. -/
theorem processCmd_two (cmd K1 V1 K2 V2 : String) (stockMap : StockMap) (os : String)
    (hdata : cmd.data = (K1.data ++ '=' :: V1.data) ++ '&' :: (K2.data ++ '=' :: V2.data))
    (hK1 : ∀ c ∈ K1.data, isSeparator c = false) (hV1 : ∀ c ∈ V1.data, isSeparator c = false)
    (hK2 : ∀ c ∈ K2.data, isSeparator c = false) (hV2 : ∀ c ∈ V2.data, isSeparator c = false)
    (e1 : '=' ∉ K1.data) (e2 : '=' ∉ K2.data) :
    processCmd cmd stockMap os
      = dispatch (ParamMap.assign (ParamMap.assign (fun _ => none) K1 V1) K2 V2) stockMap os := by
  unfold processCmd
  rw [extractParams_eq_specParams, hdata]
  unfold specParams
  rw [specPieces_append_sep _ _ _ (noSep_param K1 V1 hK1 hV1) (by decide),
    specPieces_word _ (noSep_param K2 V2 hK2 hV2)]
  simp [fillParamMap, splitParam_kv, e1, e2]

theorem create_query_data (X sa : String) :
    ("trans=create&stock=" ++ X ++ "&amount=" ++ sa).data
      = ("trans".data ++ '=' :: "create".data) ++ '&' ::
          (("stock".data ++ '=' :: X.data) ++ '&' :: ("amount".data ++ '=' :: sa.data)) := by
  have l1 : "trans=create&stock=".data
      = "trans".data ++ '=' :: "create".data ++ '&' :: ("stock".data ++ ['=']) := by decide
  have l2 : "&amount=".data = '&' :: ("amount".data ++ ['=']) := by decide
  simp only [String.data_append, l1, l2, List.append_assoc, List.cons_append, List.nil_append]

theorem buy_query_data (X sb : String) :
    ("trans=buy&stock=" ++ X ++ "&amount=" ++ sb).data
      = ("trans".data ++ '=' :: "buy".data) ++ '&' ::
          (("stock".data ++ '=' :: X.data) ++ '&' :: ("amount".data ++ '=' :: sb.data)) := by
  have l1 : "trans=buy&stock=".data
      = "trans".data ++ '=' :: "buy".data ++ '&' :: ("stock".data ++ ['=']) := by decide
  have l2 : "&amount=".data = '&' :: ("amount".data ++ ['=']) := by decide
  simp only [String.data_append, l1, l2, List.append_assoc, List.cons_append, List.nil_append]

theorem status_query_data (X : String) :
    ("trans=status&stock=" ++ X).data
      = ("trans".data ++ '=' :: "status".data) ++ '&' :: ("stock".data ++ '=' :: X.data) := by
  have l1 : "trans=status&stock=".data
      = "trans".data ++ '=' :: "status".data ++ '&' :: ("stock".data ++ ['=']) := by decide
  simp only [String.data_append, l1, List.append_assoc, List.cons_append, List.nil_append]

/-! ### Decimal numerals of whole numbers: `std::stod` and the stream's printing -/

theorem roundPos_exact_flag (neg : Bool) (N k : Nat) (hN1 : 1 ≤ N) (hN2 : N ≤ 2 ^ 53) :
    (roundPos neg (N * 2 ^ k) (2 ^ k)).2 = false := by
  have hk : 0 < 2 ^ k := Nat.pow_pos (by norm_num)
  rcases Nat.lt_or_eq_of_le hN2 with hlt | heq
  · have h1 : 2 ^ Nat.log 2 N ≤ N := Nat.pow_log_le_self 2 (by omega)
    have h2 : N < 2 ^ (Nat.log 2 N + 1) := Nat.lt_pow_succ_log_self (by norm_num) N
    have hL : Nat.log 2 N ≤ 52 := by
      by_contra hcon
      have : 2 ^ 53 ≤ 2 ^ Nat.log 2 N := Nat.pow_le_pow_right (by norm_num) (by omega)
      omega
    obtain ⟨j, hj⟩ : ∃ j : ℕ, Nat.log 2 N + j = 52 := ⟨52 - Nat.log 2 N, by omega⟩
    have hE : binExp (N * 2 ^ k) (2 ^ k) = -(j : Int) := by
      rw [binExp_exact N k _ h1 h2]; omega
    have hmax : max (-(j : Int)) (-1074) = -(j : Int) := max_eq_left (by omega)
    have hq1 : 2 ^ 52 ≤ N * 2 ^ j := by
      calc 2 ^ 52 = 2 ^ Nat.log 2 N * 2 ^ j := by rw [← pow_add, hj]
        _ ≤ N * 2 ^ j := Nat.mul_le_mul_right _ h1
    have hq2 : N * 2 ^ j < 2 ^ 53 := by
      calc N * 2 ^ j < 2 ^ (Nat.log 2 N + 1) * 2 ^ j :=
            Nat.mul_lt_mul_of_pos_right h2 (Nat.pow_pos (by norm_num))
        _ = 2 ^ 53 := by rw [← pow_add]; congr 1; omega
    unfold roundPos
    simp only [hE, hmax, scale2_div]
    have e1 : ¬ (N * 2 ^ j = 2 ^ 53) := by omega
    have e2 : ¬ (N * 2 ^ j = 0) := by omega
    have e3 : ¬ ((971 : Int) < -(j : Int)) := by omega
    have e4 : ¬ (-(j : Int) < -1074) := by omega
    simp only [e1, e2, e3, e4, if_false, decide_False, Bool.false_and]
  · subst heq
    have hE : binExp (2 ^ 53 * 2 ^ k) (2 ^ k) = 1 := by
      rw [binExp_exact (2 ^ 53) k 53 le_rfl (Nat.pow_lt_pow_right (by norm_num) (by omega))]
      norm_num
    have hmax : max (1 : Int) (-1074) = 1 := max_eq_left (by omega)
    have hs : scale2 (2 ^ 53 * 2 ^ k) (2 ^ k) 1 = (2 ^ 52 * (2 ^ k * 2), 2 ^ k * 2) := by
      simp only [scale2]
      norm_num
      ring
    unfold roundPos
    simp only [hE, hmax, hs, divRoundEven_mul _ _ (show 0 < 2 ^ k * 2 by omega)]
    norm_num

theorem decDigit_digitChar (d : Nat) (h : d < 10) : decDigit (Nat.digitChar d) = some d := by
  interval_cases d <;> rfl

theorem decDigit_none_of (c : Char) (hc : decDigit c = none) (a : Char)
    (h : (decDigit a).isSome = true) : a ≠ c := by
  rintro rfl
  rw [hc] at h
  exact Bool.noConfusion h

/-- What `readDigits` makes of the decimal numeral of `n` followed by other text. -/
theorem toDigitsCore_spec (fuel : Nat) : ∀ (n : Nat) (ds : List Char), n < fuel →
    ∃ pre, Nat.toDigitsCore 10 fuel n ds = pre ++ ds ∧ pre ≠ []
      ∧ (∀ c ∈ pre, (decDigit c).isSome = true)
      ∧ ∀ acc cnt rest, readDigits decDigit 10 (pre ++ rest) acc cnt
          = readDigits decDigit 10 rest (acc * 10 ^ pre.length + n) (cnt + pre.length) := by
  induction fuel with
  | zero => intro n ds h; omega
  | succ fuel ih =>
    intro n ds hn
    have hd : decDigit (Nat.digitChar (n % 10)) = some (n % 10) :=
      decDigit_digitChar _ (Nat.mod_lt _ (by norm_num))
    simp only [Nat.toDigitsCore]
    by_cases h0 : n / 10 = 0
    · simp only [h0, if_true]
      have hlt : n < 10 := by omega
      refine ⟨[Nat.digitChar (n % 10)], rfl, by simp, ?_, ?_⟩
      · intro c hc
        simp only [List.mem_singleton] at hc
        subst hc
        simp [hd]
      · intro acc cnt rest
        simp only [List.singleton_append, readDigits, hd, List.length_singleton, pow_one]
        have : n % 10 = n := Nat.mod_eq_of_lt hlt
        rw [this]
        rfl
    · simp only [h0, if_false]
      obtain ⟨pre, e1, e2, e3, e4⟩ := ih (n / 10) (Nat.digitChar (n % 10) :: ds) (by omega)
      refine ⟨pre ++ [Nat.digitChar (n % 10)], by rw [e1]; simp, by simp, ?_, ?_⟩
      · intro c hc
        rcases List.mem_append.1 hc with h1 | h1
        · exact e3 c h1
        · simp only [List.mem_singleton] at h1
          subst h1
          simp [hd]
      · intro acc cnt rest
        rw [List.append_assoc, e4]
        simp only [List.singleton_append, readDigits, hd, List.length_append,
          List.length_singleton]
        congr 1
        have := Nat.div_add_mod n 10
        rw [pow_succ]
        nlinarith [Nat.div_add_mod n 10]

theorem takeWhile_all (p : Char → Bool) (l : List Char) (h : ∀ c ∈ l, p c = true) :
    l.takeWhile p = l := by
  induction l with
  | nil => rfl
  | cons a as ih =>
    have ha := h a (List.mem_cons_self _ _)
    have has : ∀ c ∈ as, p c = true := fun c hc => h c (List.mem_cons_of_mem _ hc)
    simp [List.takeWhile, ha, ih has]

theorem decDigit_isSpace (a : Char) (h : (decDigit a).isSome = true) : isSpace a = false := by
  have n1 := decDigit_none_of ' ' (by decide) a h
  have n2 := decDigit_none_of '\t' (by decide) a h
  have n3 := decDigit_none_of '\n' (by decide) a h
  have n4 := decDigit_none_of '\x0b' (by decide) a h
  have n5 := decDigit_none_of '\x0c' (by decide) a h
  have n6 := decDigit_none_of '\r' (by decide) a h
  simp [isSpace, n1, n2, n3, n4, n5, n6]

theorem decDigit_isSeparator (a : Char) (h : (decDigit a).isSome = true) :
    isSeparator a = false := by
  have n1 := decDigit_none_of '&' (by decide) a h
  simp [isSeparator, n1, decDigit_isSpace a h]

/-- `strtod` on a text of decimal digits: the number they spell, rounded. -/
theorem strtod_digits (c : Char) (r : List Char)
    (hall : ∀ d ∈ c :: r, (decDigit d).isSome = true) (M len : Nat)
    (hread : readDigits decDigit 10 (c :: r) 0 0 = (M, len, [])) :
    strtod (c :: r) = some (roundScaled false M 10 0) := by
  have hc := hall c (List.mem_cons_self _ _)
  have hsp : isSpace c = false := decDigit_isSpace c hc
  have hm : c ≠ '-' := decDigit_none_of '-' (by decide) c hc
  have hp : c ≠ '+' := decDigit_none_of '+' (by decide) c hc
  have hsign : readSign (c :: r) = (false, c :: r) := by
    unfold readSign
    split
    · next h => simp only [List.cons.injEq] at h; exact absurd h.1 hm
    · next h => simp only [List.cons.injEq] at h; exact absurd h.1 hp
    · rfl
  have hhex : ∀ l : List Char, (∀ d ∈ l, (decDigit d).isSome = true) →
      (match l with | x :: _ => (decide (x = 'x') || decide (x = 'X')) | [] => false)
        = false := by
    intro l hl
    cases l with
    | nil => rfl
    | cons x xs =>
      have hx := hl x (by simp)
      have x1 := decDigit_none_of 'x' (by decide) x hx
      have x2 := decDigit_none_of 'X' (by decide) x hx
      simp [x1, x2]
  have hhex2 := hhex r (fun d hd => hall d (List.mem_cons_of_mem _ hd))
  have hmant : readMantissa decDigit 10 (c :: r) = (M, len, 0, []) := by
    simp only [readMantissa, hread]
  unfold strtod
  simp only [List.dropWhile, hsp, hsign, hc, Bool.true_or, if_true, hhex2, Bool.and_false,
    Bool.false_eq_true, if_false, hmant, readExponent]
  simp [hhex2]

theorem repr_data (a : Nat) : (Nat.repr a).data = Nat.toDigits 10 a := rfl

theorem toDigits_digits (a : Nat) :
    (∀ c ∈ Nat.toDigits 10 a, (decDigit c).isSome = true)
      ∧ Nat.toDigits 10 a ≠ []
      ∧ readDigits decDigit 10 (Nat.toDigits 10 a) 0 0 = (a, (Nat.toDigits 10 a).length, []) := by
  obtain ⟨pre, e1, e2, e3, e4⟩ := toDigitsCore_spec (a + 1) a [] (Nat.lt_succ_self a)
  have e5 : Nat.toDigits 10 a = pre := by
    simp only [Nat.toDigits, e1, List.append_nil]
  rw [e5]
  refine ⟨e3, e2, ?_⟩
  have := e4 0 0 []
  simpa [readDigits] using this

/-- The text `Nat.repr a` is free of separators. -/
theorem repr_no_separator (a : Nat) : ∀ c ∈ (Nat.repr a).data, isSeparator c = false := by
  intro c hc
  rw [repr_data] at hc
  exact decDigit_isSeparator c ((toDigits_digits a).1 c hc)

/-- `std::stod` on the decimal numeral of a whole number up to `2^53` returns
the double of exactly that value. -/
theorem stod_repr (a : Nat) (ha : a ≤ 2 ^ 53) :
    ∃ d, stod (Nat.repr a) = .ok d ∧ d.isInt (a : ℤ)
      ∧ ∃ m e, d = .fin false m e := by
  obtain ⟨h1, h2, h3⟩ := toDigits_digits a
  have htw : (Nat.repr a).data.takeWhile (fun c => c ≠ '\x00') = Nat.toDigits 10 a := by
    rw [repr_data]
    apply takeWhile_all
    intro c hc
    have := decDigit_none_of '\x00' (by decide) c (h1 c hc)
    simpa using this
  obtain ⟨c, r, hcr⟩ : ∃ c r, Nat.toDigits 10 a = c :: r := by
    cases h : Nat.toDigits 10 a with
    | nil => exact absurd h h2
    | cons c r => exact ⟨c, r, rfl⟩
  have hst : strtod (Nat.toDigits 10 a) = some (roundScaled false a 10 0) := by
    rw [hcr] at h1 h3 ⊢
    exact strtod_digits c r h1 a _ h3
  rcases Nat.eq_zero_or_pos a with h0 | hpos
  · subst h0
    refine ⟨.fin false 0 0, ?_, ⟨⟨_, _, _, rfl⟩, by simp [Double.toRat]⟩, _, _, rfl⟩
    simp only [stod, htw, hst, roundScaled]
    rfl
  · obtain ⟨M, E, hv, hq⟩ := roundPos_exact false a 0 hpos ha
    have hf := roundPos_exact_flag false a 0 hpos ha
    simp only [pow_zero, mul_one] at hv hf
    have hrs : roundScaled false a 10 0 = (.fin false M E, false) := by
      have hne : a ≠ 0 := by omega
      simp only [roundScaled, hne, if_false, le_refl, if_true, Int.toNat_zero, pow_zero, mul_one,
        roundRat]
      exact Prod.ext hv hf
    refine ⟨.fin false M E, ?_, ⟨⟨_, _, _, rfl⟩, ?_⟩, _, _, rfl⟩
    · simp only [stod, htw, hst, hrs]
      rfl
    · simp only [Double.toRat]
      simp [hq]

/-- The order of two doubles of whole value is the order of the values. -/
theorem fge_isInt (a b : Double) (za zb : ℤ) (ha : a.isInt za) (hb : b.isInt zb)
    (h : zb ≤ za) : fge a b = true := by
  obtain ⟨⟨s, m, e, rfl⟩, ha2⟩ := ha
  obtain ⟨⟨t, n, f, rfl⟩, hb2⟩ := hb
  simp only [fge, finLe, decide_eq_true_eq]
  have h2 : (0 : ℚ) < (2 : ℚ) ^ (-(min f e)) := zpow_pos (by norm_num) _
  have c1 := alignedInt_cast t n f (min f e) (min_le_left _ _)
  have c2 := alignedInt_cast s m e (min f e) (min_le_right _ _)
  rw [hb2] at c1
  rw [ha2] at c2
  have : ((alignedInt t n f (min f e) : ℤ) : ℚ) ≤ ((alignedInt s m e (min f e) : ℤ) : ℚ) := by
    rw [c1, c2]
    exact mul_le_mul_of_nonneg_right (by exact_mod_cast h) h2.le
  exact_mod_cast this

theorem toDigitsCore_append (fuel : Nat) : ∀ (n : Nat) (ds : List Char),
    Nat.toDigitsCore 10 fuel n ds = Nat.toDigitsCore 10 fuel n [] ++ ds := by
  induction fuel with
  | zero => intro n ds; rfl
  | succ fuel ih =>
    intro n ds
    simp only [Nat.toDigitsCore]
    split_ifs with h
    · rfl
    · rw [ih _ (_ :: ds), ih _ [_]]
      simp

theorem toDigitsCore_fuel (fuel : Nat) : ∀ (fuel2 n : Nat), n < fuel → n < fuel2 →
    Nat.toDigitsCore 10 fuel n [] = Nat.toDigitsCore 10 fuel2 n [] := by
  induction fuel with
  | zero => intro fuel2 n h; omega
  | succ fuel ih =>
    intro fuel2 n h1 h2
    cases fuel2 with
    | zero => omega
    | succ fuel2 =>
      simp only [Nat.toDigitsCore]
      split_ifs with h
      · rfl
      · rw [toDigitsCore_append fuel, toDigitsCore_append fuel2,
          ih fuel2 (n / 10) (by omega) (by omega)]

theorem toDigits_step (n : Nat) (h : 10 ≤ n) :
    Nat.toDigits 10 n = Nat.toDigits 10 (n / 10) ++ [Nat.digitChar (n % 10)] := by
  have h0 : ¬ (n / 10 = 0) := by omega
  simp only [Nat.toDigits]
  rw [Nat.toDigitsCore]
  simp only [h0, if_false]
  rw [toDigitsCore_append, toDigitsCore_fuel n (n / 10 + 1) (n / 10) (by omega) (by omega)]

theorem toDigits_small (n : Nat) (h : n < 10) : Nat.toDigits 10 n = [Nat.digitChar n] := by
  have h0 : n / 10 = 0 := by omega
  have h1 : n % 10 = n := by omega
  simp only [Nat.toDigits]
  rw [Nat.toDigitsCore]
  simp only [h0, if_true, h1]

theorem toDigits_length_bounds : ∀ n : Nat, 1 ≤ n →
    1 ≤ (Nat.toDigits 10 n).length ∧ 10 ^ ((Nat.toDigits 10 n).length - 1) ≤ n
      ∧ n < 10 ^ (Nat.toDigits 10 n).length := by
  intro n
  induction n using Nat.strong_induction_on with
  | _ n ih =>
    intro hn
    by_cases h : n < 10
    · rw [toDigits_small n h]
      simp
      omega
    · have h10 : 10 ≤ n := by omega
      obtain ⟨i1, i2, i3⟩ := ih (n / 10) (by omega) (by omega)
      rw [toDigits_step n h10]
      simp only [List.length_append, List.length_cons, List.length_nil, Nat.add_sub_cancel]
      generalize (Nat.toDigits 10 (n / 10)).length = L at i1 i2 i3
      obtain ⟨j, rfl⟩ : ∃ j, L = j + 1 := ⟨L - 1, by omega⟩
      simp only [Nat.add_sub_cancel] at i2
      refine ⟨by omega, ?_, ?_⟩
      · rw [pow_succ]; omega
      · rw [pow_succ (10) (j + 1)]; omega

theorem toDigits_mul_pow (n : Nat) (hn : 1 ≤ n) (k : Nat) :
    Nat.toDigits 10 (n * 10 ^ k) = Nat.toDigits 10 n ++ List.replicate k '0' := by
  induction k with
  | zero => simp
  | succ k ih =>
    have hp : 1 ≤ n * 10 ^ k := Nat.mul_pos hn (Nat.pow_pos (by norm_num))
    have e : n * 10 ^ (k + 1) = (n * 10 ^ k) * 10 := by rw [pow_succ, Nat.mul_assoc]
    rw [e, toDigits_step _ (by omega)]
    have e1 : n * 10 ^ k * 10 / 10 = n * 10 ^ k := by omega
    have e2 : n * 10 ^ k * 10 % 10 = 0 := by omega
    rw [e1, e2, ih, List.replicate_succ', List.append_assoc]
    rfl

theorem stripZeros_replicate (k : Nat) : stripZeros (List.replicate k '0') = [] := by
  simp only [stripZeros, List.reverse_replicate]
  have : ∀ k, (List.replicate k '0').dropWhile (fun c => decide (c = '0')) = [] := by
    intro k
    induction k with
    | zero => rfl
    | succ k ih => simp [List.replicate_succ, List.dropWhile, ih]
  rw [this]
  rfl

/-- The text of `%g` for a whole number below `10^6` is its decimal numeral. -/
theorem fmtPos_whole (n d : Nat) (hd : 0 < d) (h1 : 1 ≤ n) (h6 : n < 10 ^ 6) :
    fmtPos (n * d) d = Nat.toDigits 10 n := by
  obtain ⟨b1, b2, b3⟩ := toDigits_length_bounds n h1
  have hle : d ≤ n * d := Nat.le_mul_of_pos_left d h1
  have hdiv : n * d / d = n := Nat.mul_div_cancel n hd
  have hX0 : decExp (n * d) d = ((Nat.toDigits 10 n).length : Int) - 1 := by
    simp only [decExp, hle, if_true, hdiv]
  generalize hL : (Nat.toDigits 10 n).length = L at b1 b2 b3 hX0
  have hL6 : L ≤ 6 := by
    by_contra hc
    have : 10 ^ 6 ≤ 10 ^ (L - 1) := Nat.pow_le_pow_right (by norm_num) (by omega)
    omega
  obtain ⟨k, hk⟩ : ∃ k, L + k = 6 := ⟨6 - L, by omega⟩
  have hk5 : ((5 : Int) - ((L : Int) - 1)).toNat = k := by omega
  have hD0 : divRoundEven (n * d * 10 ^ k) d = n * 10 ^ k := by
    have : n * d * 10 ^ k = (n * 10 ^ k) * d := by ring
    rw [this, divRoundEven_mul _ _ hd]
  have hlt : n * 10 ^ k < 10 ^ 6 := by
    calc n * 10 ^ k < 10 ^ L * 10 ^ k := Nat.mul_lt_mul_of_pos_right b3 (Nat.pow_pos (by norm_num))
      _ = 10 ^ 6 := by rw [← pow_add, hk]
  have hne : ¬ (n * 10 ^ k = 10 ^ 6) := by omega
  have c1 : (L : Int) - 1 ≤ 5 := by omega
  have c2 : ¬ ((L : Int) - 1 < -4 ∨ 6 ≤ (L : Int) - 1) := by omega
  have c3 : (0 : Int) ≤ (L : Int) - 1 := by omega
  have c4 : ((L : Int) - 1).toNat + 1 = L := by omega
  unfold fmtPos
  simp only [hX0, c1, if_true, hk5, hD0, hne, if_false, c2, c3, c4, toDigits_mul_pow n h1 k]
  have t1 : (Nat.toDigits 10 n ++ List.replicate k '0').take L = Nat.toDigits 10 n := by
    rw [← hL]; simp
  have t2 : (Nat.toDigits 10 n ++ List.replicate k '0').drop L = List.replicate k '0' := by
    rw [← hL]; simp
  rw [t1, t2, stripZeros_replicate]
  simp

/-- The stream prints a double of whole value `n < 10^6` (not a negative zero)
as the decimal numeral of `n`. -/
theorem fmtDouble_whole (m : Nat) (e : Int) (n : Nat)
    (hv : (Double.fin false m e).toRat = n) (h6 : n < 10 ^ 6) :
    fmtDouble (.fin false m e) = Nat.repr n := by
  have h2 : (2 : ℚ) ≠ 0 := by norm_num
  simp only [Double.toRat, Bool.false_eq_true, if_false, one_mul] at hv
  by_cases hm : m = 0
  · subst hm
    have : n = 0 := by
      have : (n : ℚ) = 0 := by rw [← hv]; simp
      exact_mod_cast this
    subst this
    rfl
  · have hn1 : 1 ≤ n := by
      by_contra hc
      have : n = 0 := by omega
      subst this
      have hm0 : (m : ℚ) ≠ 0 := by exact_mod_cast hm
      have := mul_ne_zero hm0 (zpow_ne_zero e h2)
      exact this (by simpa using hv)
    simp only [fmtDouble, hm, if_false, Bool.false_eq_true]
    by_cases he : 0 ≤ e
    · have hnat : m * 2 ^ e.toNat = n := by
        have : ((m * 2 ^ e.toNat : ℕ) : ℚ) = (n : ℚ) := by
          push_cast
          rw [← zpow_natCast, Int.toNat_of_nonneg he]
          exact hv
        exact_mod_cast this
      simp only [he, if_true, hnat]
      have := fmtPos_whole n 1 (by norm_num) hn1 h6
      rw [mul_one] at this
      rw [this]
      rfl
    · have hnat : m = n * 2 ^ (-e).toNat := by
        have : ((m : ℕ) : ℚ) = ((n * 2 ^ (-e).toNat : ℕ) : ℚ) := by
          push_cast
          rw [← hv, ← zpow_natCast, Int.toNat_of_nonneg (by omega), mul_assoc, ← zpow_add₀ h2]
          simp
        exact_mod_cast this
      simp only [he, if_false]
      rw [hnat, fmtPos_whole n _ (Nat.pow_pos (by norm_num)) hn1 h6]
      rfl

/-- The sign of the difference of two doubles of sign `+` in the order `>=`. -/
theorem fsub_sign_false (m n : Nat) (e f : Int)
    (h1 : fge (.fin false m e) (.fin false n f) = true) (s : Bool) (M : Nat) (E : Int)
    (hr : fsub (.fin false m e) (.fin false n f) = .fin s M E) : s = false := by
  simp only [fge, finLe, decide_eq_true_eq] at h1
  simp only [fsub, fneg, fadd] at hr
  rw [alignedInt_not, min_comm] at hr
  split_ifs at hr with hz hpos
  · simp only [Double.fin.injEq] at hr
    exact hr.1.symm ▸ rfl
  · have hi : ¬ (alignedInt false m e (min f e) + -alignedInt false n f (min f e) < 0) := by omega
    simp only [hi, decide_False] at hr
    rcases roundPos_fst_cases false
        ((alignedInt false m e (min f e) + -alignedInt false n f (min f e)).natAbs
          * 2 ^ (min f e).toNat) 1
      with h | ⟨m2, e2, h⟩
    · rw [h] at hr; simp at hr
    · rw [h] at hr
      simp only [Double.fin.injEq] at hr
      exact hr.1.symm
  · have hi : ¬ (alignedInt false m e (min f e) + -alignedInt false n f (min f e) < 0) := by omega
    simp only [hi, decide_False] at hr
    rcases roundPos_fst_cases false
        ((alignedInt false m e (min f e) + -alignedInt false n f (min f e)).natAbs)
        (2 ^ (-(min f e)).toNat)
      with h | ⟨m2, e2, h⟩
    · rw [h] at hr; simp at hr
    · rw [h] at hr
      simp only [Double.fin.injEq] at hr
      exact hr.1.symm

/-! ### The claims -/

/-- **C1** `sm::createStock(name, amount)` on a table without `name`: the new
table has the old entries and one more, the entry of `name`, whose name member
is `name` and whose balance is `amount`; the stream receives
`Stock <name> created with balance = <amount>`, where `<amount>` is the text
the stream prints for the double: for an amount of whole value `n < 10^6` the
decimal numeral of `n`, and for instance `0.5` for a half and `1.23457e+06` for
1234567. -/
theorem createStock_absent (stockMap : StockMap) (stock : String) (amount : Double)
    (os : String) (h : stockMap stock = none) :
    (createStock stock amount stockMap os).1
        = (fun k => if k = stock then some ⟨stock, amount⟩ else stockMap k)
      ∧ (createStock stock amount stockMap os).2
        = os ++ "Stock " ++ stock ++ " created with balance = " ++ fmtDouble amount
      ∧ (∀ (m : Nat) (e : Int) (n : Nat), amount = .fin false m e → amount.toRat = n →
          n < 10 ^ 6 →
          (createStock stock amount stockMap os).2
            = os ++ "Stock " ++ stock ++ " created with balance = " ++ Nat.repr n)
      ∧ (amount = .fin false 4503599627370496 (-53) →
          (createStock stock amount stockMap os).2
            = os ++ "Stock " ++ stock ++ " created with balance = " ++ "0.5")
      ∧ (amount = .fin false 5302424889720832 (-32) →
          (createStock stock amount stockMap os).2
            = os ++ "Stock " ++ stock ++ " created with balance = " ++ "1.23457e+06") := by
  have htext : (createStock stock amount stockMap os).2
      = os ++ "Stock " ++ stock ++ " created with balance = " ++ fmtDouble amount := by
    simp [createStock, h]
  refine ⟨?_, htext, ?_, ?_, ?_⟩
  · funext k
    by_cases hk : k = stock <;>
      simp [createStock, h, StockMap.setName, StockMap.setBalance, StockMap.entry, hk]
  · intro m e n hm hv h6
    subst hm
    rw [htext, fmtDouble_whole m e n hv h6]
  · intro hm
    subst hm
    rw [htext]
    congr 1
  · intro hm
    subst hm
    rw [htext]
    congr 1

/-- Witness of C1: creating `X` with amount 50 in the empty table writes
`Stock X created with balance = 50`. -/
theorem createStock_absent_witness :
    (fun _ => none : StockMap) "X" = none
      ∧ (createStock "X" (.fin false 7036874417766400 (-47)) (fun _ => none) "").1
        = (fun k => if k = "X" then some ⟨"X", .fin false 7036874417766400 (-47)⟩ else none)
      ∧ (createStock "X" (.fin false 7036874417766400 (-47)) (fun _ => none) "").2
        = "Stock X created with balance = 50"
      ∧ (createStock "X" dzero (fun _ => none) "").2 = "Stock X created with balance = 0"
      ∧ (createStock "X" (.fin false 4503599627370496 (-53)) (fun _ => none) "").2
        = "Stock X created with balance = 0.5"
      ∧ (createStock "X" (.fin false 5302424889720832 (-32)) (fun _ => none) "").2
        = "Stock X created with balance = 1.23457e+06"
      ∧ (createStock "X" (.fin true 7036874417766400 (-47)) (fun _ => none) "").2
        = "Stock X created with balance = -50" :=
  ⟨rfl,
    (createStock_absent (fun _ => none) "X" (.fin false 7036874417766400 (-47)) "" rfl).1,
    (createStock_absent (fun _ => none) "X" (.fin false 7036874417766400 (-47)) "" rfl).2.1.trans
      (by decide),
    by decide, by decide, by decide, by decide⟩

/-- **C2** `sm::createStock(name, amount)` on a table that has `name`: the
table is returned as it was and the stream receives
`Stock <name> already exists`; so after a first create of `name` a second
create leaves the balance the first one set. -/
theorem createStock_present (stockMap : StockMap) (stock : String) (amount : Double)
    (os : String) (h : stockMap stock ≠ none) :
    createStock stock amount stockMap os
        = (stockMap, os ++ "Stock " ++ stock ++ " already exists")
      ∧ ∀ (m0 : StockMap) (first : Double) (os0 : String), m0 stock = none →
          balanceOf (createStock stock amount (createStock stock first m0 os0).1 os).1 stock
            = some first := by
  refine ⟨by simp [createStock, h], ?_⟩
  intro m0 first os0 h0
  simp [createStock, h0, StockMap.setName, StockMap.setBalance, StockMap.entry, balanceOf]

/-- Witness of C2: a second create of `X`, with amount 0, after one with amount 50. -/
theorem createStock_present_witness :
    (createStock "X" (.fin false 7036874417766400 (-47)) (fun _ => none) "").1 "X" ≠ none
      ∧ createStock "X" dzero
          (createStock "X" (.fin false 7036874417766400 (-47)) (fun _ => none) "").1 ""
        = ((createStock "X" (.fin false 7036874417766400 (-47)) (fun _ => none) "").1,
            "" ++ "Stock " ++ "X" ++ " already exists") :=
  ⟨by decide,
    (createStock_present
      (createStock "X" (.fin false 7036874417766400 (-47)) (fun _ => none) "").1
      "X" dzero "" (by decide)).1⟩

set_option maxRecDepth 100000 in
/-- Counterexample of C3: the entry `X` has balance `2^53` and two calls
`sellStock(X, 1)` complete.  The final balance is still `2^53`: each sum
`2^53 + 1` is rounded back to `2^53`.  The claimed value, the initial balance
plus the sum of the sold amounts, is `2^53 + 2`, in double arithmetic as well
as exactly. -/
theorem sell_twice_counterexample :
    (runTrades "X"
        [.sell (.fin false 4503599627370496 (-52)), .sell (.fin false 4503599627370496 (-52))]
        (fun k => if k = "X" then some ⟨"X", .fin false 4503599627370496 1⟩ else none)).bind
        (fun m => balanceOf m "X")
      = some (.fin false 4503599627370496 1)
      ∧ fadd (fsub (.fin false 4503599627370496 1)
            (sumDouble (bought [.sell (.fin false 4503599627370496 (-52)),
              .sell (.fin false 4503599627370496 (-52))])))
          (sumDouble (sold [.sell (.fin false 4503599627370496 (-52)),
            .sell (.fin false 4503599627370496 (-52))]))
        = .fin false 4503599627370497 1
      ∧ (Double.fin false 4503599627370496 1).toRat
        ≠ (Double.fin false 4503599627370496 1).toRat
          - ((bought [.sell (.fin false 4503599627370496 (-52)),
              .sell (.fin false 4503599627370496 (-52))]).map Double.toRat).sum
          + ((sold [.sell (.fin false 4503599627370496 (-52)),
              .sell (.fin false 4503599627370496 (-52))]).map Double.toRat).sum := by
  refine ⟨by decide, by decide, ?_⟩
  norm_num [bought, sold, Double.toRat]

/-- **C3** (amended) For an existing entry whose balance is a whole number and
a sequence of completed `sm::buyStock` and `sm::sellStock` calls on it whose
amounts are whole numbers `>= 0`, with `|balance| + sum of all amounts <= 2^53`:
the final balance is finite and equals, exactly, the initial balance minus the
sum of the bought amounts plus the sum of the sold amounts. -/
theorem runTrades_whole_numbers (stock : String) (trades : List Trade)
    (stockMap m1 : StockMap) (entry : Stock) (z0 : ℤ)
    (h : stockMap stock = some entry) (h0 : entry.balance.isInt z0)
    (hz : ∀ t ∈ trades, ∃ z : ℤ, 0 ≤ z ∧ t.amount.isInt z)
    (hb : |(z0 : ℚ)| + (trades.map (fun t => t.amount.toRat)).sum ≤ 2 ^ 53)
    (hrun : runTrades stock trades stockMap = some m1) :
    ∃ b, balanceOf m1 stock = some b ∧ (∃ s m e, b = .fin s m e)
      ∧ b.toRat = entry.balance.toRat - ((bought trades).map Double.toRat).sum
          + ((sold trades).map Double.toRat).sum := by
  induction trades generalizing stockMap entry z0 with
  | nil =>
    simp only [runTrades, Option.some.injEq] at hrun
    subst hrun
    exact ⟨entry.balance, by simp [balanceOf, h], h0.1, by simp [bought, sold]⟩
  | cons t rest ih =>
    have hrest : ∀ t ∈ rest, ∃ z : ℤ, 0 ≤ z ∧ t.amount.isInt z :=
      fun t ht => hz t (List.mem_cons_of_mem _ ht)
    have hS := amounts_nonneg rest hrest
    obtain ⟨za, hza0, hza⟩ := hz t (List.mem_cons_self _ _)
    have hza0' : (0 : ℚ) ≤ za := by exact_mod_cast hza0
    simp only [List.map_cons, List.sum_cons, hza.2] at hb
    cases t with
    | buy a =>
      simp only [Trade.amount] at hza
      have habs : |((z0 - za : ℤ) : ℚ)| ≤ |(z0 : ℚ)| + za := by
        push_cast
        calc |(z0 : ℚ) - za| ≤ |(z0 : ℚ)| + |(za : ℚ)| := abs_sub _ _
          _ = |(z0 : ℚ)| + za := by rw [abs_of_nonneg hza0']
      have hex := fsub_exact entry.balance a z0 za h0 hza
        (natAbs_le_of_abs _ (by linarith))
      simp only [runTrades, buyStock_present stockMap stock a "" entry h] at hrun
      by_cases hg : fge entry.balance a = true
      · simp only [hg, if_true] at hrun
        obtain ⟨b, hb1, hb2, hb3⟩ := ih _ ⟨entry.name, fsub entry.balance a⟩ (z0 - za)
          (setBalance_same stockMap stock _ entry h) hex hrest (by linarith) hrun
        refine ⟨b, hb1, hb2, ?_⟩
        rw [hb3]
        simp only [bought, sold, List.map_cons, List.sum_cons, hex.2, h0.2, hza.2]
        push_cast
        ring
      · simp [hg] at hrun
    | sell a =>
      simp only [Trade.amount] at hza
      have habs : |((z0 + za : ℤ) : ℚ)| ≤ |(z0 : ℚ)| + za := by
        push_cast
        calc |(z0 : ℚ) + za| ≤ |(z0 : ℚ)| + |(za : ℚ)| := abs_add _ _
          _ = |(z0 : ℚ)| + za := by rw [abs_of_nonneg hza0']
      have hex := fadd_exact entry.balance a z0 za h0 hza
        (natAbs_le_of_abs _ (by linarith))
      simp only [runTrades, sellStock_present stockMap stock a "" entry h] at hrun
      obtain ⟨b, hb1, hb2, hb3⟩ := ih _ ⟨entry.name, fadd entry.balance a⟩ (z0 + za)
        (setBalance_same stockMap stock _ entry h) hex hrest (by linarith) hrun
      refine ⟨b, hb1, hb2, ?_⟩
      rw [hb3]
      simp only [bought, sold, List.map_cons, List.sum_cons, hex.2, h0.2, hza.2]
      push_cast
      ring

/-- Witness of C3: balance 50, then a buy of 30 and a sell of 5; the final
balance is 25. -/
theorem runTrades_whole_numbers_witness :
    balanceOf
        ((StockMap.setBalance
          (fun k => if k = "X" then some (⟨"X", .fin false 7036874417766400 (-47)⟩ : Stock)
            else none)
          "X" (.fin false 5629499534213120 (-48))).setBalance "X"
            (.fin false 7036874417766400 (-48))) "X"
        = some (.fin false 7036874417766400 (-48))
      ∧ (Double.fin false 7036874417766400 (-48)).toRat = 25
      ∧ ∃ b, balanceOf
          ((StockMap.setBalance
            (fun k => if k = "X" then some (⟨"X", .fin false 7036874417766400 (-47)⟩ : Stock)
              else none)
            "X" (.fin false 5629499534213120 (-48))).setBalance "X"
              (.fin false 7036874417766400 (-48))) "X" = some b
        ∧ (∃ s m e, b = .fin s m e)
        ∧ b.toRat = (Double.fin false 7036874417766400 (-47)).toRat
            - ((bought [.buy (.fin false 8444249301319680 (-48)),
                  .sell (.fin false 5629499534213120 (-50))]).map Double.toRat).sum
            + ((sold [.buy (.fin false 8444249301319680 (-48)),
                  .sell (.fin false 5629499534213120 (-50))]).map Double.toRat).sum :=
  ⟨by decide, by norm_num [Double.toRat],
    runTrades_whole_numbers "X"
      [.buy (.fin false 8444249301319680 (-48)), .sell (.fin false 5629499534213120 (-50))]
      (fun k => if k = "X" then some ⟨"X", .fin false 7036874417766400 (-47)⟩ else none)
      _ ⟨"X", .fin false 7036874417766400 (-47)⟩ 50 (by decide)
      ⟨⟨_, _, _, rfl⟩, by norm_num [Double.toRat]⟩
      (by
        intro t ht
        simp only [List.mem_cons, List.mem_singleton, List.not_mem_nil, or_false] at ht
        rcases ht with rfl | rfl
        · exact ⟨30, by norm_num, ⟨_, _, _, rfl⟩, by norm_num [Trade.amount, Double.toRat]⟩
        · exact ⟨5, by norm_num, ⟨_, _, _, rfl⟩, by norm_num [Trade.amount, Double.toRat]⟩)
      (by norm_num [Trade.amount, Double.toRat])
      rfl⟩

/-- **C5** The bound on unfinished workers does not hold for `runServer` and
`serveClient`: `sm::threadCount++` is the first statement of the worker, not a
step of the dispatcher, so with `maxThreads = 1` the dispatcher passes its check
twice before the first worker has counted itself, and two workers are
unfinished; once both have started, `sm::threadCount` itself is 2. -/
theorem admission_exceeds_maxThreads :
    Server.run 1 Server.init [.dispatch, .dispatch] = some ⟨0, 2, 0⟩
      ∧ (⟨0, 2, 0⟩ : Server).unfinished = 2
      ∧ Server.run 1 Server.init [.dispatch, .dispatch, .start, .start] = some ⟨2, 0, 2⟩
      ∧ (⟨2, 0, 2⟩ : Server).unfinished = 2
      ∧ ¬ ∀ (maxThreads : Int) (events : List Event) (s : Server),
          Server.run maxThreads Server.init events = some s →
            (s.unfinished : Int) ≤ maxThreads := by
  refine ⟨by decide, by decide, by decide, by decide, ?_⟩
  intro hall
  have h2 := hall 1 [.dispatch, .dispatch] ⟨0, 2, 0⟩ (by decide)
  revert h2
  decide

/-- Counterexample of C6: on a name that is absent, the text the three
functions write is not `stock not found`. -/
theorem not_found_text_counterexample :
    (fun _ => none : StockMap) "Y" = none
      ∧ (buyStock "Y" dzero (fun _ => none) "").output? = some "Stock not found"
      ∧ (buyStock "Y" dzero (fun _ => none) "").output? ≠ some "stock not found"
      ∧ (sellStock "Y" dzero (fun _ => none) "").2 ≠ "stock not found"
      ∧ (getStockStatus "Y" (fun _ => none) "").2 ≠ "stock not found" := by
  decide

/-- **C6** (amended) On a name that is absent from the table, each of
`sm::buyStock`, `sm::sellStock` and `sm::getStockStatus` writes
`Stock not found` and returns with the table as it was. -/
theorem trade_absent (stockMap : StockMap) (stock : String) (amount : Double) (os : String)
    (h : stockMap stock = none) :
    buyStock stock amount stockMap os = .returned stockMap (os ++ "Stock not found")
      ∧ sellStock stock amount stockMap os = (stockMap, os ++ "Stock not found")
      ∧ getStockStatus stock stockMap os = (stockMap, os ++ "Stock not found") := by
  simp [buyStock, sellStock, getStockStatus, h]

/-- Witness of C6: the three calls on `Y` in the empty table. -/
theorem trade_absent_witness :
    (fun _ => none : StockMap) "Y" = none
      ∧ buyStock "Y" (.fin false 5629499534213120 (-49)) (fun _ => none) ""
          = .returned (fun _ => none) ("" ++ "Stock not found")
      ∧ sellStock "Y" (.fin false 5629499534213120 (-49)) (fun _ => none) ""
          = ((fun _ => none), "" ++ "Stock not found")
      ∧ getStockStatus "Y" (fun _ => none) "" = ((fun _ => none), "" ++ "Stock not found") :=
  ⟨rfl, trade_absent (fun _ => none) "Y" (.fin false 5629499534213120 (-49)) "" rfl⟩

/-- The three calls of a create, a buy and a status on a new name, with amount
texts that `std::stod` converts to `A >= B`. -/
theorem three_calls (X sa sb : String) (A B : Double) (stockMap : StockMap)
    (os1 os2 os3 : String)
    (hX : ∀ c ∈ X.data, isSeparator c = false)
    (hsa : ∀ c ∈ sa.data, isSeparator c = false)
    (hsb : ∀ c ∈ sb.data, isSeparator c = false)
    (hnew : stockMap X = none)
    (hA : stod sa = .ok A) (hB : stod sb = .ok B) (hge : fge A B = true) :
    ∃ m1 m2 o1 o2,
      processCmd ("trans=create&stock=" ++ X ++ "&amount=" ++ sa) stockMap os1 = .returned m1 o1
        ∧ processCmd ("trans=buy&stock=" ++ X ++ "&amount=" ++ sb) m1 os2 = .returned m2 o2
        ∧ m2 X = some ⟨X, fsub A B⟩
        ∧ processCmd ("trans=status&stock=" ++ X) m2 os3
            = .returned m2 (os3 ++ "Balance for stock " ++ X ++ " = " ++ fmtDouble (fsub A B)) := by
  have h1 := processCmd_three _ "trans" "create" "stock" X "amount" sa stockMap os1
    (create_query_data X sa) (by decide) (by decide) (by decide) hX (by decide) hsa
    (by decide) (by decide) (by decide)
  have hm1 : (createStock X A stockMap os1).1 X = some ⟨X, A⟩ :=
    createStock_new_entry stockMap X A os1 hnew
  have h2 := processCmd_three _ "trans" "buy" "stock" X "amount" sb
    (createStock X A stockMap os1).1 os2
    (buy_query_data X sb) (by decide) (by decide) (by decide) hX (by decide) hsb
    (by decide) (by decide) (by decide)
  have hent : StockMap.entry (createStock X A stockMap os1).1 X = ⟨X, A⟩ := by
    simp [StockMap.entry, hm1]
  have h3 := processCmd_two _ "trans" "status" "stock" X
    (StockMap.setBalance (createStock X A stockMap os1).1 X (fsub A B)) os3
    (status_query_data X) (by decide) (by decide) (by decide) hX (by decide) (by decide)
  refine ⟨(createStock X A stockMap os1).1,
    StockMap.setBalance (createStock X A stockMap os1).1 X (fsub A B),
    (createStock X A stockMap os1).2, os2 ++ "Stock " ++ X ++ "'s balance updated",
    ?_, ?_, ?_, ?_⟩
  · rw [h1]
    simp [dispatch, ParamMap.at, ParamMap.assign, createAmount, hA, Except.bind]
  · rw [h2]
    simp [dispatch, ParamMap.at, ParamMap.assign, tradeAmount, hB, Except.bind, buyStock, hm1,
      hent, hge]
  · simp [StockMap.setBalance, hent]
  · rw [h3]
    simp [dispatch, ParamMap.at, ParamMap.assign, getStockStatus, StockMap.setBalance, hent]

set_option maxRecDepth 100000 in
set_option exponentiation.threshold 4000 in
/-- Counterexample of C7: the amounts `a = 9007199254740993` and
`b = 9007199254740992` satisfy `a >= b >= 0` and `a - b = 1`, yet after the
create and the buy the status call writes `Balance for stock X = 0`:
`std::stod` rounds both texts to the double `2^53`.  With `a = b = 1e-310` the
create does not even return: `std::stod` throws `std::out_of_range` on the
subnormal value. -/
theorem rounded_amount_counterexample :
    (serveAll ["trans=create&stock=X&amount=9007199254740993",
          "trans=buy&stock=X&amount=9007199254740992", "trans=status&stock=X"]
        (fun _ => none)).map (fun r => r.2)
        = some ["Stock X created with balance = 9.0072e+15", "Stock X's balance updated",
            "Balance for stock X = 0"]
      ∧ stod "9007199254740993" = .ok (.fin false 4503599627370496 1)
      ∧ stod "9007199254740992" = .ok (.fin false 4503599627370496 1)
      ∧ (Double.fin false 4503599627370496 1).toRat = 9007199254740992
      ∧ fmtDouble (.fin false 4503599627370496 (-52)) = "1"
      ∧ (processCmd "trans=create&stock=X&amount=1e-310" (fun _ => none) "").raised = true :=
  ⟨by decide, rfl, rfl, by norm_num [Double.toRat], by decide, by decide⟩

/-- **C7** (amended) For a name `X` free of white space and `&` that the table
lacks, `processCmd` on `trans=create&stock=X&amount=a`, then on
`trans=buy&stock=X&amount=b`, then on `trans=status&stock=X` returns each time
and the last call writes `Balance for stock X = ` followed by the balance as
the stream prints it, in these two cases.  First, for amount texts `a` and `b`
(free of white space and `&`) that `std::stod` converts without throwing to
doubles `A >= B`: the balance is the double `A - B`.  Second, for whole numbers
`a >= b >= 0` with `a <= 2^53` written as decimal numerals: the balance is
exactly `a - b`, and when `a - b < 10^6` the report is
`Balance for stock X = ` followed by the decimal numeral of `a - b`.  The absence
of `=` from `X` is not needed. -/
theorem create_buy_status (X : String) (stockMap : StockMap) (os1 os2 os3 : String)
    (hX : ∀ c ∈ X.data, isSeparator c = false) (hnew : stockMap X = none) :
    (∀ (sa sb : String) (A B : Double),
        (∀ c ∈ sa.data, isSeparator c = false) → (∀ c ∈ sb.data, isSeparator c = false) →
        stod sa = .ok A → stod sb = .ok B → fge A B = true →
        ∃ m1 m2 o1 o2,
          processCmd ("trans=create&stock=" ++ X ++ "&amount=" ++ sa) stockMap os1
              = .returned m1 o1
            ∧ processCmd ("trans=buy&stock=" ++ X ++ "&amount=" ++ sb) m1 os2 = .returned m2 o2
            ∧ m2 X = some ⟨X, fsub A B⟩
            ∧ processCmd ("trans=status&stock=" ++ X) m2 os3
                = .returned m2
                    (os3 ++ "Balance for stock " ++ X ++ " = " ++ fmtDouble (fsub A B)))
      ∧ (∀ a b : Nat, b ≤ a → a ≤ 2 ^ 53 →
          ∃ D m1 m2 o1 o2,
            D.isInt ((a : ℤ) - (b : ℤ))
              ∧ processCmd ("trans=create&stock=" ++ X ++ "&amount=" ++ Nat.repr a) stockMap os1
                  = .returned m1 o1
              ∧ processCmd ("trans=buy&stock=" ++ X ++ "&amount=" ++ Nat.repr b) m1 os2
                  = .returned m2 o2
              ∧ m2 X = some ⟨X, D⟩
              ∧ processCmd ("trans=status&stock=" ++ X) m2 os3
                  = .returned m2 (os3 ++ "Balance for stock " ++ X ++ " = " ++ fmtDouble D)
              ∧ (a - b < 10 ^ 6 →
                  processCmd ("trans=status&stock=" ++ X) m2 os3
                    = .returned m2
                        (os3 ++ "Balance for stock " ++ X ++ " = " ++ Nat.repr (a - b)))) := by
  refine ⟨?_, ?_⟩
  · intro sa sb A B hsa hsb hA hB hge
    exact three_calls X sa sb A B stockMap os1 os2 os3 hX hsa hsb hnew hA hB hge
  · intro a b hba ha
    obtain ⟨A, hA, hAi, mA, eA, hAf⟩ := stod_repr a ha
    obtain ⟨B, hB, hBi, mB, eB, hBf⟩ := stod_repr b (le_trans hba ha)
    have hge : fge A B = true := fge_isInt A B a b hAi hBi (by exact_mod_cast hba)
    have hbound : ((a : ℤ) - (b : ℤ)).natAbs ≤ 2 ^ 53 := by omega
    have hD : (fsub A B).isInt ((a : ℤ) - (b : ℤ)) := fsub_exact A B a b hAi hBi hbound
    obtain ⟨m1, m2, o1, o2, c1, c2, c3, c4⟩ :=
      three_calls X (Nat.repr a) (Nat.repr b) A B stockMap os1 os2 os3 hX
        (repr_no_separator a) (repr_no_separator b) hnew hA hB hge
    refine ⟨fsub A B, m1, m2, o1, o2, hD, c1, c2, c3, c4, ?_⟩
    intro h6
    obtain ⟨⟨s, M, E, hfin⟩, hval⟩ := hD
    have hs : s = false := by
      subst hAf hBf
      exact fsub_sign_false mA mB eA eB hge s M E hfin
    subst hs
    have hv : (Double.fin false M E).toRat = ((a - b : ℕ) : ℚ) := by
      rw [← hfin, hval]
      push_cast [Nat.cast_sub hba]
      rfl
    rw [c4, hfin, fmtDouble_whole M E (a - b) hv h6]

/-- Witness of C7: `a = 50`, `b = 30` on the empty table; the responses are
`Stock X created with balance = 50`, `Stock X's balance updated` and
`Balance for stock X = 20`. -/
theorem create_buy_status_witness :
    (∀ c ∈ "X".data, isSeparator c = false)
      ∧ (fun _ => none : StockMap) "X" = none
      ∧ (∃ D m1 m2 o1 o2,
          D.isInt ((50 : ℤ) - (30 : ℤ))
            ∧ processCmd ("trans=create&stock=" ++ "X" ++ "&amount=" ++ Nat.repr 50)
                (fun _ => none) "" = .returned m1 o1
            ∧ processCmd ("trans=buy&stock=" ++ "X" ++ "&amount=" ++ Nat.repr 30) m1 ""
                = .returned m2 o2
            ∧ m2 "X" = some ⟨"X", D⟩
            ∧ processCmd ("trans=status&stock=" ++ "X") m2 ""
                = .returned m2 ("" ++ "Balance for stock " ++ "X" ++ " = " ++ fmtDouble D)
            ∧ (50 - 30 < 10 ^ 6 →
                processCmd ("trans=status&stock=" ++ "X") m2 ""
                  = .returned m2
                      ("" ++ "Balance for stock " ++ "X" ++ " = " ++ Nat.repr (50 - 30))))
      ∧ Nat.repr 50 = "50" ∧ Nat.repr 30 = "30" ∧ Nat.repr (50 - 30) = "20"
      ∧ stod "50" = .ok (.fin false 7036874417766400 (-47))
      ∧ stod "30" = .ok (.fin false 8444249301319680 (-48))
      ∧ fmtDouble (fsub (.fin false 7036874417766400 (-47)) (.fin false 8444249301319680 (-48)))
          = "20"
      ∧ (serveAll ["trans=create&stock=X&amount=50", "trans=buy&stock=X&amount=30",
            "trans=status&stock=X"] (fun _ => none)).map (fun r => r.2)
          = some ["Stock X created with balance = 50", "Stock X's balance updated",
              "Balance for stock X = 20"] :=
  ⟨by decide, rfl,
    (create_buy_status "X" (fun _ => none) "" "" "" (by decide) rfl).2 50 30 (by decide)
      (by norm_num),
    by decide, by decide, by decide, rfl, rfl, by decide, by decide⟩

/-- **C8** On a query whose parameters all contain `=`: the parameters read by
`processCmd` are the non-empty pieces of the query between `&` and white space;
each is split at its first `=` into the key before it and the value after it;
the map filled holds for each key the value of its last occurrence; and
`processCmd` dispatches on that map.  On `trans=status&stock=A&stock=B` the
report is on `B`. -/
theorem processCmd_parsing (cmd : String) (stockMap : StockMap) (os : String)
    (h : ∀ p ∈ specParams cmd.data, '=' ∈ p) :
    extractParams (replaceAmp cmd.data) [] = specParams cmd.data
      ∧ (∀ p ∈ specParams cmd.data, splitParam p = some (specKey p, specValue p))
      ∧ fillParamMap (extractParams (replaceAmp cmd.data) []) (fun _ => none)
          = some (specParamMap cmd)
      ∧ processCmd cmd stockMap os = dispatch (specParamMap cmd) stockMap os
      ∧ (∀ entry, stockMap "B" = some entry →
          processCmd "trans=status&stock=A&stock=B" stockMap os
            = .returned stockMap
                (os ++ "Balance for stock " ++ "B" ++ " = " ++ fmtDouble entry.balance)) := by
  refine ⟨extractParams_eq_specParams _, fun p hp => splitParam_of_mem p (h p hp), ?_,
    processCmd_eq_dispatch cmd stockMap os h, ?_⟩
  · rw [extractParams_eq_specParams, fillParamMap_spec _ _ h]
    congr 1
    funext key
    simp only [specParamMap]
    cases (List.filter (fun p => decide (specKey p = key.data)) (specParams cmd.data)).getLast?
      <;> rfl
  · intro entry hB
    have h1 : specParamMap "trans=status&stock=A&stock=B" "trans" = some "status" := by decide
    have h2 : specParamMap "trans=status&stock=A&stock=B" "stock" = some "B" := by decide
    rw [processCmd_eq_dispatch _ _ _ (by decide)]
    simp [dispatch, ParamMap.at, h1, h2, getStockStatus, hB]

/-- Witness of C8: the query `trans=status&stock=A&stock=B` on a table that
holds `A` with balance 50 and `B` with balance 30. -/
theorem processCmd_parsing_witness :
    (∀ p ∈ specParams "trans=status&stock=A&stock=B".data, '=' ∈ p)
      ∧ extractParams (replaceAmp "trans=status&stock=A&stock=B".data) []
          = ["trans=status".data, "stock=A".data, "stock=B".data]
      ∧ specParamMap "trans=status&stock=A&stock=B" "stock" = some "B"
      ∧ (processCmd "trans=status&stock=A&stock=B"
          (fun k => if k = "A" then some ⟨"A", .fin false 7036874417766400 (-47)⟩
            else if k = "B" then some ⟨"B", .fin false 8444249301319680 (-48)⟩ else none)
          "").output? = some "Balance for stock B = 30" :=
  ⟨by decide,
    (processCmd_parsing "trans=status&stock=A&stock=B" (fun _ => none) "" (by decide)).1.trans
      (by decide),
    by decide, by decide⟩

/-- Counterexample of C9: the query `trans=create&stock=X&foo` has
`trans=create`, a `stock` key naming `X` and no `amount` key, yet `processCmd`
does not behave as `sm::createStock(X, 0)`: for the parameter `foo`, which has
no `=`, `param.find` returns `npos` and `param.begin() + pos` leaves the
string, so the call has no defined behaviour (with libstdc++ the construction of
`key` throws `std::length_error`); nothing is created and nothing is written. -/
theorem create_default_counterexample :
    specParamMap "trans=create&stock=X&foo" "trans" = some "create"
      ∧ specParamMap "trans=create&stock=X&foo" "stock" = some "X"
      ∧ specParamMap "trans=create&stock=X&foo" "amount" = none
      ∧ splitParam "foo".data = none
      ∧ (processCmd "trans=create&stock=X&foo" (fun _ => none) "").output? = none
      ∧ (processCmd "trans=create&stock=X&foo" (fun _ => none) "").table?.isNone = true
      ∧ processCmd "trans=create&stock=X&foo" (fun _ => none) ""
          ≠ .returned (createStock "X" dzero (fun _ => none) "").1
              (createStock "X" dzero (fun _ => none) "").2 := by
  have hu : processCmd "trans=create&stock=X&foo" (fun _ => none) "" = .undefined := rfl
  refine ⟨by decide, by decide, by decide, by decide, by decide, ?_, ?_⟩
  · rw [hu]; rfl
  · rw [hu]; exact fun hc => Result.noConfusion hc

/-- **C9** (amended) On a query whose parameters all contain `=`, with
`trans=create`, a `stock` key naming `X` and no `amount` key, `processCmd` does
what `sm::createStock(X, 0)` does and no exception leaves it; when `X` is new
its entry has balance 0. -/
theorem processCmd_create_default (cmd X : String) (stockMap : StockMap) (os : String)
    (h : ∀ p ∈ specParams cmd.data, '=' ∈ p)
    (ht : specParamMap cmd "trans" = some "create")
    (hs : specParamMap cmd "stock" = some X)
    (ha : specParamMap cmd "amount" = none) :
    processCmd cmd stockMap os
        = .returned (createStock X dzero stockMap os).1 (createStock X dzero stockMap os).2
      ∧ (processCmd cmd stockMap os).raised = false
      ∧ (stockMap X = none →
          (createStock X dzero stockMap os).1 X = some ⟨X, dzero⟩) := by
  have hp : processCmd cmd stockMap os
      = .returned (createStock X dzero stockMap os).1 (createStock X dzero stockMap os).2 := by
    rw [processCmd_eq_dispatch _ _ _ h]
    simp [dispatch, ParamMap.at, createAmount, ht, hs, ha]
  refine ⟨hp, by rw [hp]; rfl, ?_⟩
  intro hX
  simp [createStock, hX, StockMap.setName, StockMap.setBalance, StockMap.entry]

/-- Witness of C9: the query `trans=create&stock=X` on the empty table. -/
theorem processCmd_create_default_witness :
    (∀ p ∈ specParams "trans=create&stock=X".data, '=' ∈ p)
      ∧ specParamMap "trans=create&stock=X" "trans" = some "create"
      ∧ specParamMap "trans=create&stock=X" "stock" = some "X"
      ∧ specParamMap "trans=create&stock=X" "amount" = none
      ∧ processCmd "trans=create&stock=X" (fun _ => none) ""
          = .returned (createStock "X" dzero (fun _ => none) "").1
              (createStock "X" dzero (fun _ => none) "").2
      ∧ (createStock "X" dzero (fun _ => none) "").2 = "Stock X created with balance = 0" :=
  ⟨by decide, by decide, by decide, by decide,
    (processCmd_create_default "trans=create&stock=X" "X" (fun _ => none) ""
      (by decide) (by decide) (by decide) (by decide)).1,
    by decide⟩

set_option maxRecDepth 100000 in
set_option exponentiation.threshold 4000 in
/-- Counterexample of C10: in `hugeAmountQuery` every parameter contains `=`,
the keys `trans`, `stock` and `amount` are all present and the amount is a
decimal numeral, yet `processCmd` throws: the numeral `10^309` exceeds the range
of `double` and `std::stod` throws `std::out_of_range`. -/
theorem huge_amount_counterexample :
    (∀ p ∈ specParams hugeAmountQuery.data, '=' ∈ p)
      ∧ specParamMap hugeAmountQuery "amount" = some ("1" ++ String.mk (List.replicate 309 '0'))
      ∧ validDecimalText ("1" ++ String.mk (List.replicate 309 '0')) = true
      ∧ ¬ missingKey (specParamMap hugeAmountQuery)
      ∧ (processCmd hugeAmountQuery (fun _ => none) "").raised = true
      ∧ stod ("1" ++ String.mk (List.replicate 309 '0')) = .error .stodOutOfRange := by
  refine ⟨by decide, by decide, by decide, by decide, by decide, by rfl⟩

/-- **C10** (amended) On a query whose parameters all contain `=` and whose
amount, when present, is a text `std::stod` converts without an exception:
an exception leaves `processCmd` exactly when `trans` is missing, or `trans` is
one of create, buy, sell, status and `stock` is missing, or `trans` is buy or
sell and `amount` is missing; and when one does, the table and the stream are
as they were before the call. -/
theorem processCmd_raises_iff (cmd : String) (stockMap : StockMap) (os : String)
    (h : ∀ p ∈ specParams cmd.data, '=' ∈ p)
    (hv : ∀ v, specParamMap cmd "amount" = some v → ∃ d, stod v = .ok d) :
    ((processCmd cmd stockMap os).raised = true ↔ missingKey (specParamMap cmd))
      ∧ ∀ e m1 os1, processCmd cmd stockMap os = .threw e m1 os1 →
          m1 = stockMap ∧ os1 = os := by
  rw [processCmd_eq_dispatch _ _ _ h]
  generalize specParamMap cmd = pm at hv
  have key : ((dispatch pm stockMap os).raised = true ↔ missingKey pm)
      ∧ ((dispatch pm stockMap os).raised = true →
          ∃ e, dispatch pm stockMap os = .threw e stockMap os) := by
    unfold dispatch missingKey
    cases ht : pm "trans" with
    | none => simp [ParamMap.at, ht, raised_threw]
    | some tr =>
      cases hs : pm "stock" with
      | none =>
        cases ha : pm "amount" with
        | none =>
          by_cases h1 : tr = "create" <;> by_cases h2 : tr = "buy" <;>
            by_cases h3 : tr = "sell" <;> by_cases h4 : tr = "status" <;>
            simp_all [ParamMap.at, createAmount, tradeAmount, raised_returned, raised_threw,
              raised_buyStock, Except.bind]
        | some v =>
          obtain ⟨d, hd⟩ := hv v ha
          by_cases h1 : tr = "create" <;> by_cases h2 : tr = "buy" <;>
            by_cases h3 : tr = "sell" <;> by_cases h4 : tr = "status" <;>
            simp_all [ParamMap.at, createAmount, tradeAmount, raised_returned, raised_threw,
              raised_buyStock, Except.bind]
      | some st =>
        cases ha : pm "amount" with
        | none =>
          by_cases h1 : tr = "create" <;> by_cases h2 : tr = "buy" <;>
            by_cases h3 : tr = "sell" <;> by_cases h4 : tr = "status" <;>
            simp_all [ParamMap.at, createAmount, tradeAmount, raised_returned, raised_threw,
              raised_buyStock, Except.bind]
        | some v =>
          obtain ⟨d, hd⟩ := hv v ha
          by_cases h1 : tr = "create" <;> by_cases h2 : tr = "buy" <;>
            by_cases h3 : tr = "sell" <;> by_cases h4 : tr = "status" <;>
            simp_all [ParamMap.at, createAmount, tradeAmount, raised_returned, raised_threw,
              raised_buyStock, Except.bind]
  refine ⟨key.1, ?_⟩
  intro e m1 os1 heq
  have hr : (dispatch pm stockMap os).raised = true := by rw [heq]; rfl
  obtain ⟨e', he'⟩ := key.2 hr
  rw [he'] at heq
  injection heq with _ h2 h3
  exact ⟨h2.symm, h3.symm⟩

/-- Witness of C10: on `trans=buy&amount=5` the `stock` key is missing and
`processCmd` throws; the table and the stream are untouched. -/
theorem processCmd_raises_iff_witness :
    (∀ p ∈ specParams "trans=buy&amount=5".data, '=' ∈ p)
      ∧ specParamMap "trans=buy&amount=5" "amount" = some "5"
      ∧ stod "5" = .ok (.fin false 5629499534213120 (-50))
      ∧ ((processCmd "trans=buy&amount=5" (fun _ => none) "").raised = true
          ↔ missingKey (specParamMap "trans=buy&amount=5"))
      ∧ missingKey (specParamMap "trans=buy&amount=5")
      ∧ (processCmd "trans=buy&amount=5" (fun _ => none) "").output? = some "" :=
  ⟨by decide, by decide, rfl,
    (processCmd_raises_iff "trans=buy&amount=5" (fun _ => none) "" (by decide)
      (fun v hv => by
        have h5 : specParamMap "trans=buy&amount=5" "amount" = some "5" := by decide
        rw [h5] at hv
        injection hv with hv
        subst hv
        exact ⟨_, rfl⟩)).1,
    by decide, by decide⟩

/-! ### The loop of `url_decode` -/

open StdString

theorem Decoded.map_map {α β γ : Type} (f : α → β) (g : β → γ) (d : Decoded α) :
    (d.map f).map g = d.map (fun a => g (f a)) := by
  cases d <;> rfl

theorem decodeSuffix_nil : decodeSuffix [] = .returned [] := by
  unfold decodeSuffix; rfl

theorem decodeSuffix_plus (rest : List Char) :
    decodeSuffix ('+' :: rest) = (decodeSuffix rest).map (fun r => ' ' :: r) := by
  rw [decodeSuffix]; simp

theorem decodeSuffix_percent (rest : List Char) :
    decodeSuffix ('%' :: rest)
      = match stoi16 (rest.take 2) with
        | .error e => .threw e
        | .ok v => (decodeSuffix (rest.drop 2)).map (fun r => toChar v :: r) := by
  rw [decodeSuffix]; simp

theorem decodeSuffix_other (c : Char) (rest : List Char) (h1 : c ≠ '+') (h2 : c ≠ '%') :
    decodeSuffix (c :: rest) = (decodeSuffix rest).map (fun r => c :: r) := by
  rw [decodeSuffix]; simp [h1, h2]

theorem decodeSuffix_plain (pre r : List Char) (h : ∀ d ∈ pre, d ≠ '%' ∧ d ≠ '+') :
    decodeSuffix (pre ++ r) = (decodeSuffix r).map (fun x => pre ++ x) := by
  induction pre with
  | nil =>
    simp only [List.nil_append]
    generalize decodeSuffix r = d
    cases d <;> rfl
  | cons a as ih =>
    have ha := h a (List.mem_cons_self _ _)
    have has : ∀ d ∈ as, d ≠ '%' ∧ d ≠ '+' := fun d hd => h d (List.mem_cons_of_mem _ hd)
    rw [List.cons_append, decodeSuffix_other _ _ ha.2 ha.1, ih has, Decoded.map_map]
    rfl

theorem firstIndex_atHead_none (q : Char → Bool) (rest : List Char)
    (h : firstIndex (atHead q) rest = none) : ∀ d ∈ rest, q d = false := by
  induction rest with
  | nil => intro d hd; simp at hd
  | cons a as ih =>
    simp only [firstIndex, atHead] at h
    split_ifs at h with hp
    have h2 : firstIndex (atHead q) as = none := by simpa using h
    intro d hd
    rcases List.mem_cons.1 hd with rfl | hd
    · simpa using hp
    · exact ih h2 d hd

theorem firstIndex_atHead_some (q : Char → Bool) (rest : List Char) (i : Nat)
    (h : firstIndex (atHead q) rest = some i) :
    ∃ pre c post, rest = pre ++ c :: post ∧ pre.length = i ∧ q c = true
      ∧ ∀ d ∈ pre, q d = false := by
  induction rest generalizing i with
  | nil => simp [firstIndex] at h
  | cons a as ih =>
    simp only [firstIndex, atHead] at h
    split_ifs at h with hp
    · simp only [Option.some.injEq] at h
      subst h
      exact ⟨[], a, as, rfl, rfl, hp, by intro d hd; simp at hd⟩
    · cases hj : firstIndex (atHead q) as with
      | none => simp [hj] at h
      | some j =>
        simp only [hj, Option.map_some', Option.some.injEq] at h
        obtain ⟨pre, c, post, e1, e2, e3, e4⟩ := ih j hj
        refine ⟨a :: pre, c, post, by rw [e1]; rfl, by simp [e2, h], e3, ?_⟩
        intro d hd
        rcases List.mem_cons.1 hd with rfl | hd
        · simpa using hp
        · exact e4 d hd

theorem findFrom_append (p : List Char → Bool) (done rest : List Char) :
    findFrom p (done ++ rest) done.length
      = (firstIndex p rest).map (fun i => done.length + i) := by
  simp [findFrom]

theorem plain_of_not_special (l : List Char)
    (h : ∀ d ∈ l, (['%', '+'].contains d) = false) : ∀ d ∈ l, d ≠ '%' ∧ d ≠ '+' := by
  intro d hd
  have := h d hd
  constructor
  · rintro rfl; simp at this
  · rintro rfl; simp at this

theorem special_cases (c : Char) (h : (['%', '+'].contains c) = true) : c = '%' ∨ c = '+' := by
  simpa using h

theorem decodeSuffix_of_plain (rest : List Char) (h : ∀ d ∈ rest, d ≠ '%' ∧ d ≠ '+') :
    decodeSuffix rest = .returned rest := by
  have := decodeSuffix_plain rest [] h
  rw [List.append_nil, decodeSuffix_nil] at this
  rw [this]
  simp [Decoded.map]

theorem length_mid (done pre : List Char) : done.length + pre.length = (done ++ pre).length := by
  simp

theorem getElem?_mid (done pre post : List Char) (c : Char) :
    (done ++ (pre ++ c :: post))[done.length + pre.length]? = some c := by
  rw [length_mid, ← List.append_assoc, List.getElem?_append_right (Nat.le_refl _)]
  simp

theorem take_mid (done pre post : List Char) (c : Char) :
    (done ++ (pre ++ c :: post)).take (done.length + pre.length) = done ++ pre := by
  rw [length_mid, ← List.append_assoc]
  exact List.take_left' rfl

theorem drop_mid (done pre post : List Char) (c : Char) :
    (done ++ (pre ++ c :: post)).drop (done.length + pre.length) = c :: post := by
  rw [length_mid, ← List.append_assoc]
  exact List.drop_left' rfl

theorem urlDecodeLoop_eq (fuel : Nat) : ∀ (done rest : List Char), rest.length < fuel →
    urlDecodeLoop fuel (done ++ rest) done.length
      = (decodeSuffix rest).map (fun r => done ++ r) := by
  induction fuel with
  | zero => intro done rest h; omega
  | succ fuel ih =>
    intro done rest hlen
    simp only [urlDecodeLoop, find_first_of, findFrom_append]
    cases hf : firstIndex (atHead (fun c => ['%', '+'].contains c)) rest with
    | none =>
      have hplain := plain_of_not_special _ (firstIndex_atHead_none _ _ hf)
      rw [decodeSuffix_of_plain rest hplain]
      rfl
    | some i =>
      obtain ⟨pre, c, post, e1, e2, e3, e4⟩ := firstIndex_atHead_some _ _ _ hf
      subst e1
      subst e2
      have hpre := plain_of_not_special _ e4
      have hlen2 : post.length < fuel := by
        simp only [List.length_append, List.length_cons] at hlen
        omega
      simp only [Option.map_some', getElem?_mid]
      rcases special_cases c e3 with rfl | rfl
      · -- '%'
        have hne : ¬ (('%' : Char) = '+') := by decide
        have hsub : substr (done ++ (pre ++ '%' :: post)) (done.length + pre.length + 1) 2
            = some (post.take 2) := by
          have hd : (done ++ (pre ++ '%' :: post)).drop (done.length + pre.length + 1) = post := by
            rw [← List.drop_drop, drop_mid]
            rfl
          have hl : ¬ (done ++ (pre ++ '%' :: post)).length < done.length + pre.length + 1 := by
            simp only [List.length_append, List.length_cons]
            omega
          simp only [substr, hd, hl, if_false]
        simp only [hne, if_false, if_true, hsub, decodeSuffix_plain pre _ hpre,
          decodeSuffix_percent]
        cases hs : stoi16 (post.take 2) with
        | error e => simp [Decoded.map]
        | ok v =>
          have hrep : replace (done ++ (pre ++ '%' :: post)) (done.length + pre.length) 3 [toChar v]
              = (done ++ pre ++ [toChar v]) ++ post.drop 2 := by
            simp only [replace, take_mid, drop_mid]
            simp
          have hpos2 : done.length + pre.length + 1 = (done ++ pre ++ [toChar v]).length := by
            simp only [List.length_append, List.length_singleton]
          simp only [hrep, hpos2]
          rw [ih _ _ (by simp only [List.length_drop]; omega)]
          simp only [Decoded.map_map]
          congr 1
          funext r
          simp
      · -- '+'
        have hrep : replace (done ++ (pre ++ '+' :: post)) (done.length + pre.length) 1 [' ']
            = (done ++ pre ++ [' ']) ++ post := by
          simp only [replace, take_mid, drop_mid]
          simp
        have hpos : done.length + pre.length + 1 = (done ++ pre ++ [' ']).length := by
          simp only [List.length_append, List.length_singleton]
        simp only [hrep, hpos, if_true]
        rw [ih _ _ hlen2, decodeSuffix_plain pre _ hpre, decodeSuffix_plus]
        simp only [Decoded.map_map]
        congr 1
        funext r
        simp

theorem url_decode_eq (s : String) :
    url_decode s = (decodeSuffix s.data).map String.mk := by
  have h := urlDecodeLoop_eq (s.length + 1) [] s.data (Nat.lt_succ_self _)
  simp only [List.nil_append, List.length_nil] at h
  unfold url_decode
  rw [h, Decoded.map_map]

theorem decodeSuffix_finished (n : Nat) : ∀ rest : List Char, rest.length ≤ n →
    decodeSuffix rest ≠ .unfinished := by
  induction n with
  | zero =>
    intro rest h
    have : rest = [] := List.length_eq_zero.1 (by omega)
    subst this
    rw [decodeSuffix_nil]; simp
  | succ n ih =>
    intro rest h
    cases rest with
    | nil => rw [decodeSuffix_nil]; simp
    | cons c cs =>
      have hcs : cs.length ≤ n := by simp only [List.length_cons] at h; omega
      have key : ∀ (f : List Char → List Char) (l : List Char), l.length ≤ n →
          (decodeSuffix l).map f ≠ .unfinished := by
        intro f l hl
        have := ih l hl
        cases hd : decodeSuffix l <;> simp_all [Decoded.map]
      by_cases h1 : c = '+'
      · subst h1
        rw [decodeSuffix_plus]
        exact key _ _ hcs
      · by_cases h2 : c = '%'
        · subst h2
          rw [decodeSuffix_percent]
          cases stoi16 (cs.take 2) with
          | error e => simp
          | ok v =>
            exact key _ _ (by simp only [List.length_drop]; omega)
        · rw [decodeSuffix_other _ _ h1 h2]
          exact key _ _ hcs

theorem hexDigit_lt (a : Char) (x : Nat) (h : hexDigit a = some x) : x < 16 := by
  have e0 : '0'.toNat = 48 := rfl
  have e9 : '9'.toNat = 57 := rfl
  have ea : 'a'.toNat = 97 := rfl
  have ef : 'f'.toNat = 102 := rfl
  have eA : 'A'.toNat = 65 := rfl
  have eF : 'F'.toNat = 70 := rfl
  unfold hexDigit at h
  rw [e0, e9, ea, ef, eA, eF] at h
  split_ifs at h with h1 h2 h3 <;> simp only [Option.some.injEq] at h <;> omega

theorem hexDigit_none_of (c : Char) (hc : hexDigit c = none) (a : Char) (x : Nat)
    (h : hexDigit a = some x) : a ≠ c := by
  rintro rfl
  rw [hc] at h
  exact Option.noConfusion h

theorem hexDigit_ne (a : Char) (x : Nat) (h : hexDigit a = some x) :
    a ≠ '\x00' ∧ isSpace a = false ∧ a ≠ '-' ∧ a ≠ '+' ∧ a ≠ '%' := by
  refine ⟨hexDigit_none_of _ (by decide) a x h, ?_, hexDigit_none_of _ (by decide) a x h,
    hexDigit_none_of _ (by decide) a x h, hexDigit_none_of _ (by decide) a x h⟩
  have n1 := hexDigit_none_of ' ' (by decide) a x h
  have n2 := hexDigit_none_of '\t' (by decide) a x h
  have n3 := hexDigit_none_of '\n' (by decide) a x h
  have n4 := hexDigit_none_of '\x0b' (by decide) a x h
  have n5 := hexDigit_none_of '\x0c' (by decide) a x h
  have n6 := hexDigit_none_of '\r' (by decide) a x h
  simp [isSpace, n1, n2, n3, n4, n5, n6]

theorem stoi16_hex2 (a b : Char) (x y : Nat) (ha : hexDigit a = some x)
    (hb : hexDigit b = some y) : stoi16 [a, b] = .ok ((16 * x + y : Nat) : Int) := by
  obtain ⟨a0, a1, a2, a3, _⟩ := hexDigit_ne a x ha
  obtain ⟨b0, _, _, _, _⟩ := hexDigit_ne b y hb
  have hx := hexDigit_lt a x ha
  have hy := hexDigit_lt b y hb
  have hsign : readSign [a, b] = (false, [a, b]) := by
    unfold readSign
    split
    · next h => simp only [List.cons.injEq] at h; exact absurd h.1 a2
    · next h => simp only [List.cons.injEq] at h; exact absurd h.1 a3
    · rfl
  have hr : readDigits hexDigit 16 [a, b] 0 0 = (16 * x + y, 2, []) := by
    simp [readDigits, ha, hb, Nat.mul_comm]
  unfold stoi16 strtol16
  simp only [List.takeWhile, a0, b0, ne_eq, not_false_eq_true, decide_True, List.dropWhile, a1,
    hsign, hr]
  simp only [Nat.reduceEqDiff, if_false, Bool.false_eq_true]
  have h1 : ¬ (((16 * x + y : Nat) : Int) < -(2 ^ 31) ∨ 2 ^ 31 - 1 < ((16 * x + y : Nat) : Int)) := by
    omega
  rw [if_neg h1]

theorem toChar_byte (n : Nat) (h : n < 256) : toChar (n : Int) = Char.ofNat n := by
  unfold toChar
  congr 1
  omega

theorem wellEncoded_other (c : Char) (cs : List Char) (h : c ≠ '%') :
    wellEncoded (c :: cs) = wellEncoded cs := by
  rcases cs with _ | ⟨a, _ | ⟨b, rest⟩⟩ <;> simp [wellEncoded, h]

theorem specDecode_plus (cs : List Char) : specDecode ('+' :: cs) = ' ' :: specDecode cs := by
  rcases cs with _ | ⟨a, _ | ⟨b, rest⟩⟩ <;> simp [specDecode]

theorem specDecode_other (c : Char) (cs : List Char) (h1 : c ≠ '+') (h2 : c ≠ '%') :
    specDecode (c :: cs) = c :: specDecode cs := by
  rcases cs with _ | ⟨a, _ | ⟨b, rest⟩⟩ <;> simp [specDecode, h1, h2]

theorem specDecode_percent (a b : Char) (rest : List Char) :
    specDecode ('%' :: a :: b :: rest)
      = Char.ofNat (16 * (hexDigit a).getD 0 + (hexDigit b).getD 0) :: specDecode rest := by
  simp [specDecode]

theorem wellEncoded_percent (a b : Char) (rest : List Char) :
    wellEncoded ('%' :: a :: b :: rest)
      = ((hexDigit a).isSome && (hexDigit b).isSome && wellEncoded rest) := by
  simp [wellEncoded]

theorem decodeSuffix_wellEncoded (n : Nat) : ∀ rest : List Char, rest.length ≤ n →
    wellEncoded rest = true → decodeSuffix rest = .returned (specDecode rest) := by
  induction n with
  | zero =>
    intro rest h _
    have : rest = [] := List.length_eq_zero.1 (by omega)
    subst this
    rw [decodeSuffix_nil]; rfl
  | succ n ih =>
    intro rest h hw
    cases rest with
    | nil => rw [decodeSuffix_nil]; rfl
    | cons c cs =>
      have hcs : cs.length ≤ n := by simp only [List.length_cons] at h; omega
      by_cases h1 : c = '+'
      · subst h1
        have hw2 : wellEncoded cs = true := by
          rwa [wellEncoded_other _ _ (by decide)] at hw
        rw [decodeSuffix_plus, ih cs hcs hw2, specDecode_plus]
        rfl
      · by_cases h2 : c = '%'
        · subst h2
          cases cs with
          | nil => simp [wellEncoded] at hw
          | cons a as =>
            cases as with
            | nil => simp [wellEncoded] at hw
            | cons b rest2 =>
              rw [wellEncoded_percent] at hw
              simp only [Bool.and_eq_true] at hw
              obtain ⟨⟨hxa, hxb⟩, hw2⟩ := hw
              obtain ⟨x, hx⟩ := Option.isSome_iff_exists.1 hxa
              obtain ⟨y, hy⟩ := Option.isSome_iff_exists.1 hxb
              have hlt : 16 * x + y < 256 := by
                have := hexDigit_lt a x hx
                have := hexDigit_lt b y hy
                omega
              have hr2 : rest2.length ≤ n := by
                simp only [List.length_cons] at hcs; omega
              rw [decodeSuffix_percent]
              simp only [List.take, List.drop, stoi16_hex2 a b x y hx hy, ih rest2 hr2 hw2]
              rw [specDecode_percent, toChar_byte _ hlt]
              simp [Decoded.map, hx, hy]
        · have hw2 : wellEncoded cs = true := by
            rwa [wellEncoded_other _ _ h2] at hw
          rw [decodeSuffix_other _ _ h1 h2, ih cs hcs hw2, specDecode_other _ _ h1 h2]
          rfl

/-! ### The claims on `url_decode` and on the frame of the trades -/

/-- **C11** `url_decode` is not safe on every input: on `100%` and on `%zz`
the call `std::stoi(hex, nullptr, 16)` finds no digit to convert and throws
`std::invalid_argument`.  What does hold: the loop always ends, and an input
with neither `%` nor `+` is returned as it is. -/
theorem url_decode_throws :
    url_decode "100%" = .threw .stoiInvalidArgument
      ∧ url_decode "%zz" = .threw .stoiInvalidArgument
      ∧ (∀ s : String, url_decode s ≠ .unfinished)
      ∧ (∀ s : String, (∀ c ∈ s.data, c ≠ '%' ∧ c ≠ '+') → url_decode s = .returned s) := by
  refine ⟨by decide, by decide, ?_, ?_⟩
  · intro s
    rw [url_decode_eq]
    have := decodeSuffix_finished s.data.length s.data le_rfl
    cases hd : decodeSuffix s.data <;> simp_all [Decoded.map]
  · intro s hs
    rw [url_decode_eq, decodeSuffix_of_plain _ hs]
    rfl

/-- **C12** On a string in which every `%`, read from left to right, is
followed by two hexadecimal digits, `url_decode` returns the string with each
`%XX` replaced by the byte of hexadecimal value `XX`, each `+` by a space, and
every other character kept in order; a decoded byte is not decoded again:
`%2541` gives `%41` and `%2B` gives `+`. -/
theorem url_decode_wellEncoded (s : String) (h : wellEncoded s.data = true) :
    url_decode s = .returned (String.mk (specDecode s.data))
      ∧ url_decode "%2541" = .returned "%41"
      ∧ url_decode "%2B" = .returned "+" := by
  refine ⟨?_, by decide, by decide⟩
  rw [url_decode_eq, decodeSuffix_wellEncoded _ _ le_rfl h]
  rfl

/-- Witness of C12: `a+b%20c%2541%2B` decodes to `a b c%41+`. -/
theorem url_decode_wellEncoded_witness :
    wellEncoded "a+b%20c%2541%2B".data = true
      ∧ url_decode "a+b%20c%2541%2B" = .returned (String.mk (specDecode "a+b%20c%2541%2B".data))
      ∧ String.mk (specDecode "a+b%20c%2541%2B".data) = "a b c%41+" :=
  ⟨by decide, (url_decode_wellEncoded "a+b%20c%2541%2B" (by decide)).1, by decide⟩

/-- **C14** On an existing name, a completed `sm::buyStock` and a
`sm::sellStock` change only the balance of that entry: its name member stays,
every other key keeps its entry, and the keys of the table are the same (no
entry is removed or added); `sm::getStockStatus` returns the table as it was. -/
theorem trade_frame (stockMap : StockMap) (stock : String) (amount : Double) (os : String)
    (entry : Stock) (h : stockMap stock = some entry) :
    (∀ m1 os1, buyStock stock amount stockMap os = .returned m1 os1 →
        m1 stock = some ⟨entry.name, fsub entry.balance amount⟩
          ∧ (∀ k, k ≠ stock → m1 k = stockMap k)
          ∧ (∀ k, (m1 k).isSome = (stockMap k).isSome))
      ∧ ((sellStock stock amount stockMap os).1 stock
            = some ⟨entry.name, fadd entry.balance amount⟩
          ∧ (∀ k, k ≠ stock → (sellStock stock amount stockMap os).1 k = stockMap k)
          ∧ (∀ k, ((sellStock stock amount stockMap os).1 k).isSome = (stockMap k).isSome))
      ∧ (getStockStatus stock stockMap os).1 = stockMap := by
  have frame : ∀ v : Double,
      (stockMap.setBalance stock v) stock = some ⟨entry.name, v⟩
        ∧ (∀ k, k ≠ stock → (stockMap.setBalance stock v) k = stockMap k)
        ∧ (∀ k, ((stockMap.setBalance stock v) k).isSome = (stockMap k).isSome) := by
    intro v
    refine ⟨setBalance_same stockMap stock v entry h, ?_, ?_⟩
    · intro k hk
      simp [StockMap.setBalance, hk]
    · intro k
      by_cases hk : k = stock
      · subst hk
        simp [StockMap.setBalance, h]
      · simp [StockMap.setBalance, hk]
  refine ⟨?_, ?_, ?_⟩
  · intro m1 os1 hr
    rw [buyStock_present stockMap stock amount os entry h] at hr
    by_cases hg : fge entry.balance amount = true
    · simp only [hg, if_true, Result.returned.injEq] at hr
      rw [← hr.1]
      exact frame _
    · simp [hg] at hr
  · rw [sellStock_present stockMap stock amount os entry h]
    exact frame _
  · simp [getStockStatus, h]

/-- Witness of C14: a buy of 30 on `X`, with balance 50, in a table that also
holds `Y`. -/
theorem trade_frame_witness :
    (fun k => if k = "X" then some (⟨"X", .fin false 7036874417766400 (-47)⟩ : Stock)
        else if k = "Y" then some ⟨"Y", dzero⟩ else none) "X"
        = some ⟨"X", .fin false 7036874417766400 (-47)⟩
      ∧ (getStockStatus "X"
          (fun k => if k = "X" then some (⟨"X", .fin false 7036874417766400 (-47)⟩ : Stock)
            else if k = "Y" then some ⟨"Y", dzero⟩ else none) "").1
        = (fun k => if k = "X" then some (⟨"X", .fin false 7036874417766400 (-47)⟩ : Stock)
            else if k = "Y" then some ⟨"Y", dzero⟩ else none)
      ∧ (sellStock "X" (.fin false 8444249301319680 (-48))
          (fun k => if k = "X" then some (⟨"X", .fin false 7036874417766400 (-47)⟩ : Stock)
            else if k = "Y" then some ⟨"Y", dzero⟩ else none) "").1 "Y"
        = some ⟨"Y", dzero⟩ :=
  ⟨by decide,
    (trade_frame
      (fun k => if k = "X" then some (⟨"X", .fin false 7036874417766400 (-47)⟩ : Stock)
        else if k = "Y" then some ⟨"Y", dzero⟩ else none)
      "X" (.fin false 8444249301319680 (-48)) "" ⟨"X", .fin false 7036874417766400 (-47)⟩
      (by decide)).2.2,
    by decide⟩

end Homework8

namespace Homework4

open StdString

/-! ### Searches and substrings in `breakDownURL` -/

theorem firstIndex_atHead_found (q : Char → Bool) (pre post : List Char) (c : Char)
    (hpre : ∀ d ∈ pre, q d = false) (hc : q c = true) :
    firstIndex (atHead q) (pre ++ c :: post) = some pre.length := by
  induction pre with
  | nil => simp [firstIndex, atHead, hc]
  | cons a as ih =>
    have ha : q a = false := hpre a (List.mem_cons_self _ _)
    have has : ∀ d ∈ as, q d = false := fun d hd => hpre d (List.mem_cons_of_mem _ hd)
    simp [firstIndex, atHead, ha, ih has]

theorem firstIndex_atHead_absent (q : Char → Bool) (l : List Char)
    (h : ∀ d ∈ l, q d = false) : firstIndex (atHead q) l = none := by
  induction l with
  | nil => rfl
  | cons a as ih =>
    have ha : q a = false := h a (List.mem_cons_self _ _)
    have has : ∀ d ∈ as, q d = false := fun d hd => h d (List.mem_cons_of_mem _ hd)
    simp [firstIndex, atHead, ha, ih has]

theorem firstIndex_slashes (scheme rest : List Char) (h : '/' ∉ scheme) :
    firstIndex (fun s => ['/', '/'].isPrefixOf s) (scheme ++ ':' :: '/' :: '/' :: rest)
      = some (scheme.length + 1) := by
  induction scheme with
  | nil => simp [firstIndex, List.isPrefixOf]
  | cons a as ih =>
    have ha : a ≠ '/' := fun e => h (by simp [e])
    have has : '/' ∉ as := fun e => h (List.mem_cons_of_mem _ e)
    have hne : ('/' == a) = false := by simpa using Ne.symm ha
    simp [firstIndex, List.isPrefixOf, hne, ih has]

theorem findFrom_after (p : List Char → Bool) (pfx r : List Char) :
    findFrom p (pfx ++ r) pfx.length = (firstIndex p r).map (fun i => pfx.length + i) := by
  simp [findFrom]

theorem substr_mid (pfx mid post : List Char) :
    substr (pfx ++ (mid ++ post)) pfx.length mid.length = some mid := by
  have hl : ¬ (pfx ++ (mid ++ post)).length < pfx.length := by
    simp only [List.length_append]; omega
  simp only [substr, hl, if_false, List.drop_left, List.take_left]

theorem substr_tail (pfx post : List Char) (n : Nat) (h : post.length ≤ n) :
    substr (pfx ++ post) pfx.length n = some post := by
  have hl : ¬ (pfx ++ post).length < pfx.length := by
    simp only [List.length_append]; omega
  simp only [substr, hl, if_false, List.drop_left, List.take_of_length_le h]

/-- The start of the host: the position after `://`. -/
theorem hostStart_eq (scheme rest : List Char) (h : '/' ∉ scheme)
    (hlen : (scheme ++ ':' :: '/' :: '/' :: rest).length < npos) :
    (sizeT (findStr ['/', '/'] (scheme ++ ':' :: '/' :: '/' :: rest) 0) + 2) % 2 ^ 64
      = (scheme ++ [':', '/', '/']).length := by
  have hf : findStr ['/', '/'] (scheme ++ ':' :: '/' :: '/' :: rest) 0
      = some (scheme.length + 1) := by
    simp [findStr, findFrom, firstIndex_slashes scheme rest h]
  simp only [hf, sizeT, Option.getD_some, List.length_append, List.length_cons,
    List.length_nil] at hlen ⊢
  simp only [npos] at hlen
  omega

/-- Without a port and with a path free of `:`, `breakDownURL` returns the
host, `80` and the path. -/
theorem breakDownURL_no_port (scheme host path : List Char)
    (hs : '/' ∉ scheme) (hh : ∀ c ∈ host, c ≠ ':' ∧ c ≠ '/')
    (hp : ':' ∉ path)
    (hlen : (scheme ++ ':' :: '/' :: '/' :: (host ++ '/' :: path)).length < npos) :
    breakDownURL (String.mk (scheme ++ ':' :: '/' :: '/' :: (host ++ '/' :: path)))
      = some (String.mk host, "80", String.mk ('/' :: path)) := by
  have hstart := hostStart_eq scheme (host ++ '/' :: path) hs hlen
  have hurl : scheme ++ ':' :: '/' :: '/' :: (host ++ '/' :: path)
      = (scheme ++ [':', '/', '/']) ++ (host ++ '/' :: path) := by simp
  have hslash : findChar '/' ((scheme ++ [':', '/', '/']) ++ (host ++ '/' :: path))
      (scheme ++ [':', '/', '/']).length
      = some ((scheme ++ [':', '/', '/']).length + host.length) := by
    rw [findChar, findFrom_after, firstIndex_atHead_found _ host path '/'
      (fun d hd => by simpa using (hh d hd).2) (by simp)]
    rfl
  have hcolon : findChar ':' ((scheme ++ [':', '/', '/']) ++ (host ++ '/' :: path))
      (scheme ++ [':', '/', '/']).length = none := by
    rw [findChar, findFrom_after, firstIndex_atHead_absent]
    · rfl
    · intro d hd
      rcases List.mem_append.1 hd with h1 | h1
      · simpa using (hh d h1).1
      · rcases List.mem_cons.1 h1 with h2 | h2
        · subst h2; decide
        · have : d ≠ ':' := fun e => hp (e ▸ h2)
          simpa using this
  have hlen2 : (scheme ++ [':', '/', '/']).length + host.length + (path.length + 1) < npos := by
    simp only [List.length_append, List.length_cons, List.length_nil] at hlen ⊢
    omega
  rw [hurl] at hstart
  unfold breakDownURL
  simp only [hurl]
  simp only [hstart]
  simp only [hslash, hcolon, sizeT, Option.getD_some, Option.getD_none, if_true]
  have e1 : ((scheme ++ [':', '/', '/']).length + host.length + 2 ^ 64
      - (scheme ++ [':', '/', '/']).length) % 2 ^ 64 = host.length := by
    simp only [npos] at hlen2
    omega
  have e2 : (scheme ++ [':', '/', '/']).length + host.length
      = ((scheme ++ [':', '/', '/']) ++ host).length := by
    simp only [List.length_append]
  rw [e1, substr_mid]
  simp only []
  rw [e2, ← List.append_assoc, substr_tail _ _ _ (by simp only [List.length_cons]; omega)]
  simp

/-- With a port, `breakDownURL` returns the host, the port and the path,
whatever the path holds. -/
theorem breakDownURL_with_port (scheme host port path : List Char)
    (hs : '/' ∉ scheme) (hh : ∀ c ∈ host, c ≠ ':' ∧ c ≠ '/')
    (hp : ∀ c ∈ port, c ≠ ':' ∧ c ≠ '/')
    (hlen : (scheme ++ ':' :: '/' :: '/' :: (host ++ ':' :: (port ++ '/' :: path))).length
      < npos) :
    breakDownURL
        (String.mk (scheme ++ ':' :: '/' :: '/' :: (host ++ ':' :: (port ++ '/' :: path))))
      = some (String.mk host, String.mk port, String.mk ('/' :: path)) := by
  have hstart := hostStart_eq scheme (host ++ ':' :: (port ++ '/' :: path)) hs hlen
  have hurl : scheme ++ ':' :: '/' :: '/' :: (host ++ ':' :: (port ++ '/' :: path))
      = (scheme ++ [':', '/', '/']) ++ (host ++ ':' :: (port ++ '/' :: path)) := by simp
  have hr : host ++ ':' :: (port ++ '/' :: path) = (host ++ ':' :: port) ++ '/' :: path := by
    simp
  have hslash : findChar '/' ((scheme ++ [':', '/', '/']) ++ (host ++ ':' :: (port ++ '/' :: path)))
      (scheme ++ [':', '/', '/']).length
      = some ((scheme ++ [':', '/', '/']).length + (host.length + 1 + port.length)) := by
    rw [findChar, findFrom_after, hr, firstIndex_atHead_found _ (host ++ ':' :: port) path '/'
      (fun d hd => by
        rcases List.mem_append.1 hd with h1 | h1
        · simpa using (hh d h1).2
        · rcases List.mem_cons.1 h1 with h2 | h2
          · subst h2; decide
          · simpa using (hp d h2).2) (by simp)]
    simp only [List.length_append, List.length_cons, List.length_nil, Option.map_some']
    congr 1
    omega
  have hcolon : findChar ':' ((scheme ++ [':', '/', '/']) ++ (host ++ ':' :: (port ++ '/' :: path)))
      (scheme ++ [':', '/', '/']).length
      = some ((scheme ++ [':', '/', '/']).length + host.length) := by
    rw [findChar, findFrom_after, firstIndex_atHead_found _ host (port ++ '/' :: path) ':'
      (fun d hd => by simpa using (hh d hd).1) (by simp)]
    rfl
  have hlen2 : (scheme ++ [':', '/', '/']).length + host.length + 1 + port.length
      + (path.length + 1) < npos := by
    simp only [List.length_append, List.length_cons, List.length_nil] at hlen ⊢
    omega
  have hnp : ¬ ((scheme ++ [':', '/', '/']).length + host.length = npos) := by omega
  simp only [npos] at hlen2
  rw [hurl] at hstart
  unfold breakDownURL
  simp only [hurl]
  simp only [hstart]
  simp only [hslash, hcolon, sizeT, Option.getD_some, hnp, if_false, ne_eq, not_false_eq_true,
    if_true]
  have e1 : ((scheme ++ [':', '/', '/']).length + host.length + 2 ^ 64
      - (scheme ++ [':', '/', '/']).length) % 2 ^ 64 = host.length := by
    simp only [List.length_append, List.length_cons, List.length_nil] at hlen2 ⊢
    omega
  have e2 : (scheme ++ [':', '/', '/']).length + (host.length + 1 + port.length)
      = ((scheme ++ [':', '/', '/']) ++ (host ++ ':' :: port)).length := by
    simp only [List.length_append, List.length_cons, List.length_nil]
    omega
  have e3 : ((scheme ++ [':', '/', '/']).length + host.length + 1) % 2 ^ 64
      = ((scheme ++ [':', '/', '/']) ++ (host ++ [':'])).length := by
    simp only [List.length_append, List.length_cons, List.length_nil] at hlen2 ⊢
    omega
  have e4 : ((scheme ++ [':', '/', '/']).length + (host.length + 1 + port.length) + 2 ^ 64
      - ((scheme ++ [':', '/', '/']).length + host.length) + 2 ^ 64 - 1) % 2 ^ 64
      = port.length := by
    simp only [List.length_append, List.length_cons, List.length_nil] at hlen2 ⊢
    omega
  have u1 : (scheme ++ [':', '/', '/']) ++ (host ++ ':' :: (port ++ '/' :: path))
      = ((scheme ++ [':', '/', '/']) ++ (host ++ ':' :: port)) ++ '/' :: path := by simp
  have u2 : (scheme ++ [':', '/', '/']) ++ (host ++ ':' :: (port ++ '/' :: path))
      = ((scheme ++ [':', '/', '/']) ++ (host ++ [':'])) ++ (port ++ '/' :: path) := by simp
  rw [e1, substr_mid, e4, e3]
  simp only []
  rw [e2]
  have p1 : substr ((scheme ++ [':', '/', '/']) ++ (host ++ ':' :: (port ++ '/' :: path)))
      ((scheme ++ [':', '/', '/']) ++ (host ++ ':' :: port)).length npos
      = some ('/' :: path) := by
    rw [u1]
    exact substr_tail _ _ _ (by
      simp only [List.length_append, List.length_cons, List.length_nil, npos] at hlen2 ⊢
      omega)
  have p2 : substr ((scheme ++ [':', '/', '/']) ++ (host ++ ':' :: (port ++ '/' :: path)))
      ((scheme ++ [':', '/', '/']) ++ (host ++ [':'])).length port.length = some port := by
    rw [u2]
    exact substr_mid _ _ _
  rw [p1]
  simp only []
  rw [p2]

/-! ### The claim on `breakDownURL` -/

/-- **C13** `breakDownURL` does not return (host, port, path) for every valid
URL of the form `scheme://host/path`: it looks for the `:` of the port from the
start of the host to the end of the URL, so a `:` in the path of a URL without
port is taken for it.  On `http://host/a:b` the result is
(`host/a`, `b`, `/a:b`) where (`host`, `80`, `/a:b`) is due.  The two examples of
the documentation come out as documented, and so does every URL
`scheme://host:port/path`, and every URL `scheme://host/path` whose path has no
`:` (scheme free of `/`, host and port free of `:` and `/`). -/
theorem breakDownURL_colon_in_path :
    breakDownURL "http://host/a:b" = some ("host/a", "b", "/a:b")
      ∧ breakDownURL "http://host/a:b" ≠ some ("host", "80", "/a:b")
      ∧ breakDownURL "https://localhost:8080/~raodm/one.txt"
          = some ("localhost", "8080", "/~raodm/one.txt")
      ∧ breakDownURL "ftp://ftp.files.miamioh.edu/index.html"
          = some ("ftp.files.miamioh.edu", "80", "/index.html")
      ∧ (∀ scheme host port path : List Char, '/' ∉ scheme →
          (∀ c ∈ host, c ≠ ':' ∧ c ≠ '/') → (∀ c ∈ port, c ≠ ':' ∧ c ≠ '/') →
          (scheme ++ ':' :: '/' :: '/' :: (host ++ ':' :: (port ++ '/' :: path))).length < npos →
          breakDownURL
              (String.mk (scheme ++ ':' :: '/' :: '/' :: (host ++ ':' :: (port ++ '/' :: path))))
            = some (String.mk host, String.mk port, String.mk ('/' :: path)))
      ∧ (∀ scheme host path : List Char, '/' ∉ scheme →
          (∀ c ∈ host, c ≠ ':' ∧ c ≠ '/') → ':' ∉ path →
          (scheme ++ ':' :: '/' :: '/' :: (host ++ '/' :: path)).length < npos →
          breakDownURL (String.mk (scheme ++ ':' :: '/' :: '/' :: (host ++ '/' :: path)))
            = some (String.mk host, "80", String.mk ('/' :: path))) :=
  ⟨by decide, by decide, by decide, by decide,
    fun scheme host port path hs hh hp hlen =>
      breakDownURL_with_port scheme host port path hs hh hp hlen,
    fun scheme host path hs hh hp hlen => breakDownURL_no_port scheme host path hs hh hp hlen⟩

end Homework4
